import Mathlib

/-!
# File-management handlers of alist (`server/handles/fsmanage.go`)

A shallow embedding of the request handlers `FsMkdir`, `FsMove`, `FsRecursiveMove`,
`FsCopy`, `FsRename`, `FsRegexRename`, `FsRemove` and `Link`.

* The storage layer (`fs.List`, `fs.Move`, ...) is a record of transition functions over an
  arbitrary backend state `σ`; every handler threads that state explicitly.
* Every handler returns its response together with the list of storage calls it made, in
  order, each call carrying the outcome the storage layer gave, and the state it left.
  `Faithful` replays such a list on the storage layer.
* The loop of `FsRecursiveMove` is cut after a given number of pops; a run that is cut
  before the queue is empty has no response.
* Helpers that live outside the handlers' file (`path.Join`, `regexp`, `op.GetNearestMeta`,
  `common.CanWrite`, `sign.Sign`, ...) are parameters, collected in `Deps`.
* Logging is left out: `common.ErrorResp(c, err, 500, true)` is `ErrorResp err 500`.
-/

namespace Alist

/-! ## Data model -/

/-- Go `error` values. `errors.Is(errors.Cause(err), errs.MetaNotFound)` is equality with
`MetaNotFound`; `errs.PermissionDenied` is the constructor of that name. -/
inductive Err where
  | PermissionDenied
  | MetaNotFound
  | Other (msg : String)
deriving DecidableEq, Repr

/-- An object returned by a listing (`model.Obj`). `ptr` is the identity of the interface
value: Go compares it when the object is used as a key of `filePathMap`. -/
structure Obj where
  ptr : Nat
  name : String
  isDir : Bool
deriving DecidableEq, Repr

/-- Modelled from the spec: the meta record (`model.Meta`) is declared outside the handlers'
file; the spec gives it a path, a permission override and its applicability to sub-paths. -/
structure Meta where
  Path : String
  Write : Bool
  WSub : Bool
deriving DecidableEq, Repr

/-- The value of `model.Link` the handler looks at: the URL and whether `Data` is non-nil. -/
structure ModelLink where
  URL : String
  hasData : Bool
deriving DecidableEq, Repr

/-- Payload of a success response. -/
inductive Data where
  | Str (s : String)
  | Lnk (l : ModelLink)
deriving DecidableEq, Repr

/-- What the handler writes with `common.SuccessResp`, `common.ErrorResp` and
`common.ErrorStrResp`. -/
inductive Resp where
  | SuccessResp (data : Option Data)
  | ErrorResp (err : Err) (code : Nat)
  | ErrorStrResp (msg : String) (code : Nat)
deriving DecidableEq, Repr

deriving instance DecidableEq for Except

/-- One call into the storage layer, with the arguments passed and the outcome returned. -/
inductive Call where
  | List (path : String) (flag : Bool) (res : Except Err (List Obj))
  | MakeDir (path : String) (err : Option Err)
  | Move (src dst : String) (flag : Bool) (err : Option Err)
  | Copy (src dst : String) (flag : Bool) (ok : Bool) (err : Option Err)
  | Rename (path newName : String) (err : Option Err)
  | Remove (path : String) (err : Option Err)
  | Link (path ip : String) (res : Except Err ModelLink)
  | Close (err : Option Err)
deriving DecidableEq

/-- The identity of the request (`model.User`): its capability predicates and `JoinPath`. -/
structure User where
  CanWrite : Bool
  CanMove : Bool
  CanCopy : Bool
  CanRename : Bool
  CanRemove : Bool
  JoinPath : String → Except Err String

/-- A compiled pattern (`*regexp.Regexp`) with the two methods the handlers call. -/
structure Regexp where
  MatchString : String → Bool
  ReplaceAllString : String → String → String

/-- The storage mount owning a path, reduced to `Config().OnlyLocal`. -/
structure Storage where
  OnlyLocal : Bool
deriving DecidableEq, Repr

/-- Functions called by the handlers and defined elsewhere. -/
structure Deps where
  /-- Go `stdpath.Join` -/
  Join : String → String → String
  /-- Go `stdpath.Dir` -/
  Dir : String → String
  /-- Go `op.GetNearestMeta`: the meta pointer (nil is `none`) and the error (nil is `none`) -/
  GetNearestMeta : String → Option Meta × Option Err
  /-- Go `common.CanWrite` -/
  CanWrite : Option Meta → String → Bool
  /-- Go `regexp.Compile` -/
  Compile : String → Except Err Regexp
  /-- Go `utils.EncodePath` -/
  EncodePath : String → Bool → String
  /-- Go `sign.Sign` -/
  Sign : String → String

/-- The storage layer (package `fs`) as transitions over a backend state `σ`; the request
context `c`, which the handlers pass to every call, is part of that state (`SetMeta` is
`c.Set("meta", meta)`). -/
structure Fs (σ : Type) where
  List : σ → String → Bool → Except Err (List Obj) × σ
  MakeDir : σ → String → Option Err × σ
  Move : σ → String → String → Bool → Option Err × σ
  Copy : σ → String → String → Bool → (Bool × Option Err) × σ
  Rename : σ → String → String → Option Err × σ
  Remove : σ → String → Option Err × σ
  Link : σ → String → String → Except Err ModelLink × σ
  Close : σ → Option Err × σ
  GetStorage : σ → String → Except Err Storage
  SetMeta : σ → Option Meta → σ

/-- Result of a handler: the response, the storage calls made in order, the final state. -/
abbrev Out (σ : Type) := Resp × List Call × σ

/-- Records a call in front of the calls of the rest of the run. -/
def Out.after {σ : Type} (c : Call) (o : Out σ) : Out σ := (o.1, c :: o.2.1, o.2.2)

/-- Result of a handler with a loop that is cut after a number of rounds: the response when
the handler got to write one (`none` when the rounds ran out first), the storage calls made
until then, the state reached. -/
abbrev Run (σ : Type) := Option Resp × List Call × σ

/-- Records a call in front of the calls of the rest of a run. -/
def Run.after {σ : Type} (c : Call) (o : Run σ) : Run σ := (o.1, c :: o.2.1, o.2.2)

/-- What the handlers read from the request context `c` besides the user and the body:
`common.GetApiUrl(c.Request)` and `c.ClientIP()`. -/
structure Ctx where
  ApiUrl : String
  ClientIP : String

structure MkdirOrLinkReq where
  Path : String

structure MoveCopyReq where
  SrcDir : String
  DstDir : String
  Names : List String

structure RecursiveMoveReq where
  SrcDir : String
  DstDir : String

structure RenameReq where
  Path : String
  Name : String

structure RegexRenameReq where
  SrcDir : String
  SrcNameRegex : String
  NewNameRegex : String

structure RemoveReq where
  Dir : String
  Names : List String

/-! ## Handlers -/

section Handlers
variable {σ : Type}

/-- The error that aborts a handler after `op.GetNearestMeta`: a non-nil error that is not
`errs.MetaNotFound`. -/
def metaFatal : Option Err → Option Err
  | some e => if e ≠ Err.MetaNotFound then some e else none
  | none => none

/-- Handler `FsMkdir` (lines 26-56). -/
def FsMkdir (d : Deps) (fs : Fs σ) (user : User) (bind : Except Err MkdirOrLinkReq) (s : σ) :
    Out σ :=
  match bind with
  | .error e => (.ErrorResp e 400, [], s)
  | .ok req =>
    match user.JoinPath req.Path with
    | .error e => (.ErrorResp e 403, [], s)
    | .ok reqPath =>
      let mkdir : Out σ :=
        match fs.MakeDir s reqPath with
        | (some e, s1) => (.ErrorResp e 500, [.MakeDir reqPath (some e)], s1)
        | (none, s1) => (.SuccessResp none, [.MakeDir reqPath none], s1)
      if !user.CanWrite then
        let r := d.GetNearestMeta (d.Dir reqPath)
        match metaFatal r.2 with
        | some e => (.ErrorResp e 500, [], s)
        | none =>
          if !d.CanWrite r.1 reqPath then (.ErrorResp .PermissionDenied 403, [], s)
          else mkdir
      else mkdir

/-- The loop of `FsMove` (lines 89-95) from index `i` on; `n` is `len(req.Names)`. -/
def moveNames (d : Deps) (fs : Fs σ) (srcDir dstDir : String) (n : Nat) :
    Nat → List String → σ → Out σ
  | _, [], s => (.SuccessResp none, [], s)
  | i, name :: rest, s =>
    let src := d.Join srcDir name
    let flag := decide (n > i + 1)
    match fs.Move s src dstDir flag with
    | (some e, s1) => (.ErrorResp e 500, [.Move src dstDir flag (some e)], s1)
    | (none, s1) => (moveNames d fs srcDir dstDir n (i + 1) rest s1).after
        (.Move src dstDir flag none)

/-- Handler `FsMove` (lines 64-97). -/
def FsMove (d : Deps) (fs : Fs σ) (user : User) (bind : Except Err MoveCopyReq) (s : σ) :
    Out σ :=
  match bind with
  | .error e => (.ErrorResp e 400, [], s)
  | .ok req =>
    if req.Names.length = 0 then (.ErrorStrResp "Empty file names" 400, [], s)
    else if !user.CanMove then (.ErrorResp .PermissionDenied 403, [], s)
    else
      match user.JoinPath req.SrcDir with
      | .error e => (.ErrorResp e 403, [], s)
      | .ok srcDir =>
        match user.JoinPath req.DstDir with
        | .error e => (.ErrorResp e 403, [], s)
        | .ok dstDir => moveNames d fs srcDir dstDir req.Names.length 0 req.Names s

/-- The loop of `FsCopy` (lines 212-221); `added` is `len(addedTask)` so far. The queued
name is appended before the error is looked at. -/
def copyNames (d : Deps) (fs : Fs σ) (srcDir dstDir : String) (n : Nat) :
    Nat → List String → Nat → σ → Out σ
  | _, [], added, s =>
    if added > 0 then
      (.SuccessResp (some (.Str ("Added " ++ toString added ++ " tasks"))), [], s)
    else (.SuccessResp none, [], s)
  | i, name :: rest, added, s =>
    let src := d.Join srcDir name
    let flag := decide (n > i + 1)
    match fs.Copy s src dstDir flag with
    | ((ok, some e), s1) => (.ErrorResp e 500, [.Copy src dstDir flag ok (some e)], s1)
    | ((ok, none), s1) =>
      (copyNames d fs srcDir dstDir n (i + 1) rest (if ok then added + 1 else added) s1).after
        (.Copy src dstDir flag ok none)

/-- Handler `FsCopy` (lines 186-227). -/
def FsCopy (d : Deps) (fs : Fs σ) (user : User) (bind : Except Err MoveCopyReq) (s : σ) :
    Out σ :=
  match bind with
  | .error e => (.ErrorResp e 400, [], s)
  | .ok req =>
    if req.Names.length = 0 then (.ErrorStrResp "Empty file names" 400, [], s)
    else if !user.CanCopy then (.ErrorResp .PermissionDenied 403, [], s)
    else
      match user.JoinPath req.SrcDir with
      | .error e => (.ErrorResp e 403, [], s)
      | .ok srcDir =>
        match user.JoinPath req.DstDir with
        | .error e => (.ErrorResp e 403, [], s)
        | .ok dstDir => copyNames d fs srcDir dstDir req.Names.length 0 req.Names 0 s

/-- Handler `FsRename` (lines 234-255). -/
def FsRename (fs : Fs σ) (user : User) (bind : Except Err RenameReq) (s : σ) : Out σ :=
  match bind with
  | .error e => (.ErrorResp e 400, [], s)
  | .ok req =>
    if !user.CanRename then (.ErrorResp .PermissionDenied 403, [], s)
    else
      match user.JoinPath req.Path with
      | .error e => (.ErrorResp e 403, [], s)
      | .ok reqPath =>
        match fs.Rename s reqPath req.Name with
        | (some e, s1) => (.ErrorResp e 500, [.Rename reqPath req.Name (some e)], s1)
        | (none, s1) => (.SuccessResp none, [.Rename reqPath req.Name none], s1)

/-- The loop of `FsRemove` (lines 343-349). -/
def removeNames (d : Deps) (fs : Fs σ) (reqDir : String) : List String → σ → Out σ
  | [], s => (.SuccessResp none, [], s)
  | name :: rest, s =>
    let p := d.Join reqDir name
    match fs.Remove s p with
    | (some e, s1) => (.ErrorResp e 500, [.Remove p (some e)], s1)
    | (none, s1) => (removeNames d fs reqDir rest s1).after (.Remove p none)

/-- Handler `FsRemove` (lines 323-352). -/
def FsRemove (d : Deps) (fs : Fs σ) (user : User) (bind : Except Err RemoveReq) (s : σ) :
    Out σ :=
  match bind with
  | .error e => (.ErrorResp e 400, [], s)
  | .ok req =>
    if req.Names.length = 0 then (.ErrorStrResp "Empty file names" 400, [], s)
    else if !user.CanRemove then (.ErrorResp .PermissionDenied 403, [], s)
    else
      match user.JoinPath req.Dir with
      | .error e => (.ErrorResp e 403, [], s)
      | .ok reqDir => removeNames d fs reqDir req.Names s

/-! ### Recursive move -/

/-- The assignment `filePathMap[k] = v`. -/
def setPath (m : Obj → String) (k : Obj) (v : String) : Obj → String :=
  fun x => if x = k then v else m x

/-- Modelled from the spec: `generic.Queue` is declared outside the handlers' file; the spec
makes `movingFiles` a FIFO work queue. `Pop` takes the front of the list and `IsEmpty` is
`List.isEmpty`. -/
abbrev Queue := List Obj

/-- Modelled from the spec: `Push` on the FIFO queue appends at the back. -/
def Queue.Push (q : Queue) (x : Obj) : Queue := q ++ [x]

/-- The loops `for _, file := range files` of lines 145-148 and 162-165: every file is pushed
on the queue and recorded in `filePathMap` with the directory `dir`. -/
def pushAll (files : List Obj) (dir : String) (q : Queue) (m : Obj → String) :
    Queue × (Obj → String) :=
  files.foldl (fun qm file => (qm.1.Push file, setPath qm.2 file dir)) (q, m)

/-- The loop `for !movingFiles.IsEmpty()` (lines 150-181), cut after `fuel` pops: when the
pops run out before the queue is empty the run has no response yet. -/
def moveQueue (fs : Fs σ) (dstDir : String) :
    Nat → Queue → (Obj → String) → σ → Run σ
  | _, [], _, s => (some (.SuccessResp none), [], s)
  | 0, _ :: _, _, s => (none, [], s)
  | fuel + 1, movingFile :: q, m, s =>
    let movingFilePath := m movingFile ++ "/" ++ movingFile.name
    if movingFile.isDir then
      match fs.List s movingFilePath true with
      | (.error e, s1) =>
        (some (.ErrorResp e 500), [.List movingFilePath true (.error e)], s1)
      | (.ok subFiles, s1) =>
        let qm := pushAll subFiles movingFilePath q m
        (moveQueue fs dstDir fuel qm.1 qm.2 s1).after
          (.List movingFilePath true (.ok subFiles))
    else if movingFilePath = dstDir then moveQueue fs dstDir fuel q m s
    else
      match fs.Move s movingFilePath dstDir q.isEmpty with
      | (some e, s1) =>
        (some (.ErrorResp e 500), [.Move movingFilePath dstDir q.isEmpty (some e)], s1)
      | (none, s1) =>
        (moveQueue fs dstDir fuel q m s1).after (.Move movingFilePath dstDir q.isEmpty none)

/-- Handler `FsRecursiveMove` (lines 104-184), its loop cut after `fuel` pops. A missing key
of `filePathMap` reads as the empty string. -/
def FsRecursiveMove (d : Deps) (fs : Fs σ) (user : User) (bind : Except Err RecursiveMoveReq)
    (fuel : Nat) (s : σ) : Run σ :=
  match bind with
  | .error e => (some (.ErrorResp e 400), [], s)
  | .ok req =>
    if !user.CanMove then (some (.ErrorResp .PermissionDenied 403), [], s)
    else
      match user.JoinPath req.SrcDir with
      | .error e => (some (.ErrorResp e 403), [], s)
      | .ok srcDir =>
        match user.JoinPath req.DstDir with
        | .error e => (some (.ErrorResp e 403), [], s)
        | .ok dstDir =>
          let r := d.GetNearestMeta srcDir
          match metaFatal r.2 with
          | some e => (some (.ErrorResp e 500), [], s)
          | none =>
            match fs.List (fs.SetMeta s r.1) srcDir false with
            | (.error e, s1) => (some (.ErrorResp e 500), [.List srcDir false (.error e)], s1)
            | (.ok rootFiles, s1) =>
              let qm := pushAll rootFiles srcDir [] (fun _ => "")
              (moveQueue fs dstDir fuel qm.1 qm.2 s1).after
                (.List srcDir false (.ok rootFiles))

/-! ### Regex rename -/

/-- The loop of `FsRegexRename` (lines 302-313). -/
def renameFiles (fs : Fs σ) (srcRegexp : Regexp) (reqPath newNameRegex : String) :
    List Obj → σ → Out σ
  | [], s => (.SuccessResp none, [], s)
  | file :: rest, s =>
    if srcRegexp.MatchString file.name then
      let filePath := reqPath ++ "/" ++ file.name
      let newFileName := srcRegexp.ReplaceAllString file.name newNameRegex
      match fs.Rename s filePath newFileName with
      | (some e, s1) => (.ErrorResp e 500, [.Rename filePath newFileName (some e)], s1)
      | (none, s1) =>
        (renameFiles fs srcRegexp reqPath newNameRegex rest s1).after
          (.Rename filePath newFileName none)
    else renameFiles fs srcRegexp reqPath newNameRegex rest s

/-- Handler `FsRegexRename` (lines 263-316). -/
def FsRegexRename (d : Deps) (fs : Fs σ) (user : User) (bind : Except Err RegexRenameReq)
    (s : σ) : Out σ :=
  match bind with
  | .error e => (.ErrorResp e 400, [], s)
  | .ok req =>
    if !user.CanRename then (.ErrorResp .PermissionDenied 403, [], s)
    else
      match user.JoinPath req.SrcDir with
      | .error e => (.ErrorResp e 403, [], s)
      | .ok reqPath =>
        let r := d.GetNearestMeta reqPath
        match metaFatal r.2 with
        | some e => (.ErrorResp e 500, [], s)
        | none =>
          match d.Compile req.SrcNameRegex with
          | .error e => (.ErrorResp e 500, [], fs.SetMeta s r.1)
          | .ok srcRegexp =>
            match fs.List (fs.SetMeta s r.1) reqPath false with
            | (.error e, s1) => (.ErrorResp e 500, [.List reqPath false (.error e)], s1)
            | (.ok files, s1) =>
              (renameFiles fs srcRegexp reqPath req.NewNameRegex files s1).after
                (.List reqPath false (.ok files))

/-! ### Link -/

/-- Handler `Link` (lines 355-394). The deferred `Data.Close()` runs after the response is
written; its error is only logged. -/
def Link (d : Deps) (fs : Fs σ) (c : Ctx) (bind : Except Err MkdirOrLinkReq) (s : σ) :
    Out σ :=
  match bind with
  | .error e => (.ErrorResp e 400, [], s)
  | .ok req =>
    let rawPath := req.Path
    match fs.GetStorage s rawPath with
    | .error e => (.ErrorResp e 500, [], s)
    | .ok storage =>
      if storage.OnlyLocal then
        (.SuccessResp (some (.Lnk
          { URL := c.ApiUrl ++ "/p" ++ d.EncodePath rawPath true ++ "?d&sign=" ++ d.Sign rawPath,
            hasData := false })), [], s)
      else
        match fs.Link s rawPath c.ClientIP with
        | (.error e, s1) => (.ErrorResp e 500, [.Link rawPath c.ClientIP (.error e)], s1)
        | (.ok link, s1) =>
          if link.hasData then
            (.SuccessResp (some (.Lnk link)),
              [.Link rawPath c.ClientIP (.ok link), .Close (fs.Close s1).1], (fs.Close s1).2)
          else (.SuccessResp (some (.Lnk link)), [.Link rawPath c.ClientIP (.ok link)], s1)

end Handlers

/-! ## Reading a run -/

/-- The calls of a run replayed on the storage layer from the state `s`: every call was
answered by the storage layer, in the state the calls before it left, with the outcome that
is recorded, and the last call left the state `s1`. -/
def Faithful {σ : Type} (fs : Fs σ) : σ → List Call → σ → Prop
  | s, [], s1 => s1 = s
  | s, .List p b res :: tr, s1 =>
    (fs.List s p b).1 = res ∧ Faithful fs (fs.List s p b).2 tr s1
  | s, .MakeDir p e :: tr, s1 =>
    (fs.MakeDir s p).1 = e ∧ Faithful fs (fs.MakeDir s p).2 tr s1
  | s, .Move a b f e :: tr, s1 =>
    (fs.Move s a b f).1 = e ∧ Faithful fs (fs.Move s a b f).2 tr s1
  | s, .Copy a b f ok e :: tr, s1 =>
    (fs.Copy s a b f).1 = (ok, e) ∧ Faithful fs (fs.Copy s a b f).2 tr s1
  | s, .Rename p n e :: tr, s1 =>
    (fs.Rename s p n).1 = e ∧ Faithful fs (fs.Rename s p n).2 tr s1
  | s, .Remove p e :: tr, s1 =>
    (fs.Remove s p).1 = e ∧ Faithful fs (fs.Remove s p).2 tr s1
  | s, .Link p ip res :: tr, s1 =>
    (fs.Link s p ip).1 = res ∧ Faithful fs (fs.Link s p ip).2 tr s1
  | s, .Close e :: tr, s1 =>
    (fs.Close s).1 = e ∧ Faithful fs (fs.Close s).2 tr s1

/-- The source and destination of every terminal move of a run, in order. -/
def moveArgs : List Call → List (String × String)
  | [] => []
  | .Move a b _ _ :: tr => (a, b) :: moveArgs tr
  | _ :: tr => moveArgs tr

/-- The path and new name of every rename of a run, in order. -/
def renameArgs : List Call → List (String × String)
  | [] => []
  | .Rename p n _ :: tr => (p, n) :: renameArgs tr
  | _ :: tr => renameArgs tr

/-- A terminal move or copy that was passed `true` as its last argument. -/
def Call.flagged : Call → Bool
  | .Move _ _ f _ => f
  | .Copy _ _ f _ _ => f
  | _ => false

/-- The error a terminal call returned, if any. -/
def Call.err : Call → Option Err
  | .MakeDir _ e => e
  | .Move _ _ _ e => e
  | .Copy _ _ _ _ e => e
  | .Rename _ _ e => e
  | .Remove _ e => e
  | _ => none

/-- A terminal move of `src` to `dst`. -/
def Call.isMove (src dst : String) : Call → Bool
  | .Move a b _ _ => a = src ∧ b = dst
  | _ => false

/-- A terminal copy of `src` to `dst`. -/
def Call.isCopy (src dst : String) : Call → Bool
  | .Copy a b _ _ _ => a = src ∧ b = dst
  | _ => false

/-- A terminal remove of `p`. -/
def Call.isRemove (p : String) : Call → Bool
  | .Remove a _ => a = p
  | _ => false

/-- A terminal copy that answered "queued as a task" (`ok` is true). -/
def Call.queued : Call → Bool
  | .Copy _ _ _ ok _ => ok
  | _ => false

/-! ## Directory trees

The claims about the recursive move speak of a finite directory tree below the source
directory. `Tree` is such a tree; `goodCall` says that a call of the run was answered as the
tree has it. -/

/-- A finite directory tree: a file, or a directory with the trees of its entries. `ptr` and
`name` are those of the object a listing returns for the node. -/
inductive Tree where
  | file (ptr : Nat) (name : String)
  | dir (ptr : Nat) (name : String) (kids : List Tree)

/-- The object a listing returns for the root of a tree. -/
def Tree.obj : Tree → Obj
  | .file p n => { ptr := p, name := n, isDir := false }
  | .dir p n _ => { ptr := p, name := n, isDir := true }

mutual
/-- Number of objects of a tree. -/
def Tree.size : Tree → Nat
  | .file _ _ => 1
  | .dir _ _ ks => 1 + sizeL ks
/-- Number of objects of a list of trees. -/
def sizeL : List Tree → Nat
  | [] => 0
  | t :: ts => t.size + sizeL ts
end

mutual
/-- Full paths of the non-directory objects of a tree whose root lies in `dir`: containing
directory, a slash, the name. -/
def Tree.leaves (dir : String) : Tree → List String
  | .file _ n => [dir ++ "/" ++ n]
  | .dir _ n ks => leavesL (dir ++ "/" ++ n) ks
/-- Full paths of the non-directory objects of the trees listed in `dir`. -/
def leavesL (dir : String) : List Tree → List String
  | [] => []
  | t :: ts => t.leaves dir ++ leavesL dir ts
end

mutual
/-- The directories of a tree whose root lies in `dir`: full path and entries of each. -/
def Tree.dirNodes (dir : String) : Tree → List (String × List Tree)
  | .file _ _ => []
  | .dir _ n ks => (dir ++ "/" ++ n, ks) :: dirNodesL (dir ++ "/" ++ n) ks
/-- The directories of the trees listed in `dir`. -/
def dirNodesL (dir : String) : List Tree → List (String × List Tree)
  | [] => []
  | t :: ts => t.dirNodes dir ++ dirNodesL dir ts
end

mutual
/-- All objects of a tree, directories included. -/
def Tree.objs : Tree → List Obj
  | .file p n => [{ ptr := p, name := n, isDir := false }]
  | .dir p n ks => { ptr := p, name := n, isDir := true } :: objsL ks
/-- All objects of a list of trees. -/
def objsL : List Tree → List Obj
  | [] => []
  | t :: ts => t.objs ++ objsL ts
end

/-- The directories of the tree with the entries `forest` below `srcDir`, the source
directory first: full path and entries of each. -/
def dirTable (srcDir : String) (forest : List Tree) : List (String × List Tree) :=
  (srcDir, forest) :: dirNodesL srcDir forest

/-- The call was answered as in the tree: a listing of a directory of the tree succeeded and
returned the objects of its entries, a terminal move returned no error. -/
def goodCall (table : List (String × List Tree)) : Call → Bool
  | .List p _ res => table.all (fun e => e.1 != p || decide (res = .ok (e.2.map Tree.obj)))
  | .Move _ _ _ e => e.isNone
  | _ => true

/-- Number of objects below the entries of a queue; an entry is a tree with the directory
that contains it. -/
def sizeQ : List (String × Tree) → Nat
  | [] => 0
  | e :: r => e.2.size + sizeQ r

/-- Full paths of the non-directory objects below the entries of a queue. -/
def leavesQ : List (String × Tree) → List String
  | [] => []
  | e :: r => e.2.leaves e.1 ++ leavesQ r

/-- The directories below the entries of a queue. -/
def dirNodesQ : List (String × Tree) → List (String × List Tree)
  | [] => []
  | e :: r => e.2.dirNodes e.1 ++ dirNodesQ r

/-- All objects below the entries of a queue. -/
def objsQ : List (String × Tree) → List Obj
  | [] => []
  | e :: r => e.2.objs ++ objsQ r

/-! ## Concrete collaborators used in the examples -/

/-- A user with every capability whose `JoinPath` is the identity. -/
def rootUser : User :=
  { CanWrite := true, CanMove := true, CanCopy := true, CanRename := true, CanRemove := true,
    JoinPath := fun p => .ok p }

/-- A user without any capability whose `JoinPath` is the identity. -/
def guest : User :=
  { CanWrite := false, CanMove := false, CanCopy := false, CanRename := false,
    CanRemove := false, JoinPath := fun p => .ok p }

/-- The elements of a path: the texts between its slashes. -/
def splitSlash : List Char → List (List Char)
  | [] => [[]]
  | c :: cs =>
    match splitSlash cs with
    | [] => [[c]]
    | x :: xs => if c = '/' then [] :: x :: xs else (c :: x) :: xs

/-- Path elements with a slash between them. -/
def joinSlash : List (List Char) → List Char
  | [] => []
  | [x] => x
  | x :: y :: r => x ++ '/' :: joinSlash (y :: r)

/-- One round of Go's `path.Clean`: the next element of the path against the elements kept
so far (the last kept one first). An empty element and `.` are dropped; `..` takes the last
kept element away, is dropped at the root, and is kept in front of a path that is not
rooted. -/
def cleanStep (rooted : Bool) (kept : List (List Char)) (el : List Char) : List (List Char) :=
  if el = [] ∨ el = ['.'] then kept
  else if el = ['.', '.'] then
    match kept with
    | top :: rest => if top = ['.', '.'] then el :: kept else rest
    | [] => if rooted then [] else [el]
  else el :: kept

/-- Go's `path.Clean`. -/
def goClean (p : String) : String :=
  if p = "" then "."
  else
    let rooted := p.toList.head? = some '/'
    let body := joinSlash ((splitSlash p.toList).foldl (cleanStep rooted) []).reverse
    if rooted then String.mk ('/' :: body)
    else if body = [] then "."
    else String.mk body

/-- Go's `path.Join` of two elements: empty elements are left out, the others are joined by
a slash and the result is cleaned; two empty elements give the empty string. -/
def goJoin (a b : String) : String :=
  if a = "" ∧ b = "" then ""
  else goClean (if a = "" then b else a ++ "/" ++ b)

/-- Go's `path.Dir`: the path up to its last slash, cleaned. -/
def goDir (p : String) : String :=
  goClean (String.mk (p.toList.reverse.dropWhile (fun c => c != '/')).reverse)

/-- The last element of a path: what follows its last slash. -/
def baseOf (p : String) : String :=
  String.mk (p.toList.reverse.takeWhile (fun c => c != '/')).reverse

/-- Collaborators for the examples: `Join` and `Dir` are Go's, no meta record exists,
`CanWrite` follows the override of the record, no pattern compiles. -/
def plainDeps : Deps :=
  { Join := goJoin
    Dir := goDir
    GetNearestMeta := fun _ => (none, some .MetaNotFound)
    CanWrite := fun m p => match m with
      | none => false
      | some r => r.Write && (r.WSub || r.Path == p)
    Compile := fun _ => .error (.Other "no pattern")
    EncodePath := fun p _ => p
    Sign := fun p => p }

/-- A storage layer without state: it lists the directories given in `dirs` and fails to
list any other path; a terminal call on a path of `bad` fails, every other one succeeds; a
copy of a path of `queued` answers "queued". -/
def testFs (dirs : List (String × List Obj)) (bad queued : List String) : Fs Unit :=
  { List := fun _ p _ => (match dirs.lookup p with
      | some l => .ok l
      | none => .error (.Other "not found"), ())
    MakeDir := fun _ p => (if p ∈ bad then some (.Other "boom") else none, ())
    Move := fun _ a _ _ => (if a ∈ bad then some (.Other "boom") else none, ())
    Copy := fun _ a _ _ =>
      ((decide (a ∈ queued), if a ∈ bad then some (.Other "boom") else none), ())
    Rename := fun _ p _ => (if p ∈ bad then some (.Other "boom") else none, ())
    Remove := fun _ p => (if p ∈ bad then some (.Other "boom") else none, ())
    Link := fun _ p ip => (.ok { URL := "native:" ++ p ++ "@" ++ ip, hasData := true }, ())
    Close := fun _ => (none, ())
    GetStorage := fun _ p => .ok { OnlyLocal := decide (p ∈ queued) }
    SetMeta := fun _ _ => () }

/-- Collaborators in which the nearest meta record of every path grants writing to the path
and its sub-paths. -/
def grantingDeps : Deps :=
  { plainDeps with
    GetNearestMeta := fun _ => (some { Path := "/", Write := true, WSub := true }, none) }

/-- The state of a storage layer held in memory: the entries of every directory by full
path, the native links handed out (path and client IP), the number of data streams
released, and the meta record the request context carries. -/
structure Mem where
  dirs : List (String × List Obj)
  links : List (String × String)
  closed : Nat
  ctxMeta : Option Meta
deriving DecidableEq

/-- The entries of the directory `key` replaced by `f` of them. -/
def Mem.update (dirs : List (String × List Obj)) (key : String) (f : List Obj → List Obj) :
    List (String × List Obj) :=
  dirs.map (fun e => if e.1 = key then (e.1, f e.2) else e)

/-- The file at a full path: the non-directory entry of that name in its directory. -/
def Mem.file (s : Mem) (p : String) : Option Obj :=
  (s.dirs.lookup (goDir p)).bind (fun l => l.find? (fun o => o.name == baseOf p && !o.isDir))

/-- A storage layer in memory. A listing returns the entries the directory has at that
moment. A move takes the file out of its directory and puts it last in the destination
directory; a copy puts a second object there, or answers "queued" for a path of `queued`
and leaves the work to a task; a rename and a remove change the entry of the file. The
terminal calls fail on a path of `bad`, on a path that has no file, and on a destination
that is no directory. A path of `queued` is also served by an `OnlyLocal` storage. -/
def memFs (bad queued : List String) : Fs Mem :=
  { List := fun s p _ => (match s.dirs.lookup p with
      | some l => .ok l
      | none => .error (.Other "not found"), s)
    MakeDir := fun s p =>
      if p ∈ bad ∨ (s.dirs.lookup p).isSome ∨ (s.dirs.lookup (goDir p)).isNone then
        (some (.Other "boom"), s)
      else
        (none, { s with dirs := (Mem.update s.dirs (goDir p)
          (fun l => l ++ [{ ptr := 0, name := baseOf p, isDir := true }]) ++ [(p, [])]) })
    Move := fun s a b _ =>
      match (if a ∈ bad ∨ (s.dirs.lookup b).isNone then none else s.file a) with
      | none => (some (.Other "boom"), s)
      | some o =>
        (none, { s with dirs := (Mem.update (Mem.update s.dirs (goDir a) (fun l => l.erase o))
          b (fun l => l ++ [o])) })
    Copy := fun s a b _ =>
      match (if a ∈ bad ∨ (s.dirs.lookup b).isNone then none else s.file a) with
      | none => ((decide (a ∈ queued), some (.Other "boom")), s)
      | some o =>
        if a ∈ queued then ((true, none), s)
        else ((false, none), { s with dirs := Mem.update s.dirs b (fun l => l ++ [o]) })
    Rename := fun s p n =>
      match (if p ∈ bad then none else s.file p) with
      | none => (some (.Other "boom"), s)
      | some o =>
        (none, { s with dirs := (Mem.update s.dirs (goDir p)
          (fun l => l.map (fun x => if x = o then { o with name := n } else x))) })
    Remove := fun s p =>
      match (if p ∈ bad then none else s.file p) with
      | none => (some (.Other "boom"), s)
      | some o => (none, { s with dirs := Mem.update s.dirs (goDir p) (fun l => l.erase o) })
    Link := fun s p ip =>
      (.ok { URL := "native:" ++ p ++ "@" ++ ip, hasData := true },
        { s with links := s.links ++ [(p, ip)] })
    Close := fun s => (none, { s with closed := s.closed + 1 })
    GetStorage := fun _ p => .ok { OnlyLocal := decide (p ∈ queued) }
    SetMeta := fun s m => { s with ctxMeta := m } }

/-- A state of the storage layer in memory with the given directories, no link handed out
yet, no stream released and no meta record in the context. -/
def Mem.init (dirs : List (String × List Obj)) : Mem :=
  { dirs := dirs, links := [], closed := 0, ctxMeta := none }

/-- The request context of the examples. -/
def demoCtx : Ctx := { ApiUrl := "http://host/api", ClientIP := "10.0.0.7" }

/-- The last occurrence of `pat` in a text: what stands before it and what stands after. -/
def splitLast (pat : List Char) : List Char → Option (List Char × List Char)
  | [] => none
  | c :: cs =>
    match splitLast pat cs with
    | some (pre, post) => some (c :: pre, post)
    | none => if pat.isPrefixOf (c :: cs) then some ([], (c :: cs).drop pat.length) else none

/-- The lines of a text: the texts between its line breaks. -/
def splitLines : List Char → List (List Char)
  | [] => [[]]
  | c :: cs =>
    match splitLines cs with
    | [] => [[c]]
    | x :: xs => if c = '\n' then [] :: x :: xs else (c :: x) :: xs

/-- Lines with a line break between them. -/
def joinLines : List (List Char) → List Char
  | [] => []
  | [x] => x
  | x :: y :: r => x ++ '\n' :: joinLines (y :: r)

/-- Where the scan of a replacement template stands: in plain text, behind a `$`, inside a
name that follows a `$`, or inside a name that follows `$` and an opening brace. -/
inductive ExpandMode where
  | text
  | dollar
  | name (acc : List Char)
  | brace (acc : List Char)

/-- What Go's `Expand` puts for a reference with the given name when the pattern has the
groups 0 and 1 and no named group: a name that is the number 0 or 1 without leading zero
gives that group, every other name gives nothing. -/
def emitGroup (g0 g1 name : List Char) : List Char :=
  if name = ['0'] then g0 else if name = ['1'] then g1 else []

/-- Go's `Regexp.Expand` for a pattern with the groups 0 and 1 and no named group. A
reference is `$name` or `$` with the name in braces, the name being the longest run of
letters, digits and underscores (`isName`); `$$` is a dollar sign; a `$` that starts no
reference is kept as text. -/
def goExpand (isName : Char → Bool) (g0 g1 : List Char) : ExpandMode → List Char → List Char
  | .text, [] => []
  | .text, c :: cs =>
    if c = '$' then goExpand isName g0 g1 .dollar cs else c :: goExpand isName g0 g1 .text cs
  | .dollar, [] => ['$']
  | .dollar, c :: cs =>
    if c = '$' then '$' :: goExpand isName g0 g1 .text cs
    else if c = '\x7b' then goExpand isName g0 g1 (.brace []) cs
    else if isName c then goExpand isName g0 g1 (.name [c]) cs
    else '$' :: c :: goExpand isName g0 g1 .text cs
  | .name acc, [] => emitGroup g0 g1 acc
  | .name acc, c :: cs =>
    if isName c then goExpand isName g0 g1 (.name (acc ++ [c])) cs
    else emitGroup g0 g1 acc ++
      (if c = '$' then goExpand isName g0 g1 .dollar cs
       else c :: goExpand isName g0 g1 .text cs)
  | .brace acc, [] => '$' :: '\x7b' :: acc
  | .brace acc, c :: cs =>
    if isName c then goExpand isName g0 g1 (.brace (acc ++ [c])) cs
    else if c = '\x7d' ∧ acc ≠ [] then emitGroup g0 g1 acc ++ goExpand isName g0 g1 .text cs
    else '$' :: '\x7b' :: acc ++
      (if c = '$' then goExpand isName g0 g1 .dollar cs
       else c :: goExpand isName g0 g1 .text cs)

/-- What Go's `ReplaceAllString` for the pattern `(.*)\.txt` makes of one line. The dot
matches no line break, the match is leftmost and `.*` is greedy: a line that holds `.txt`
has one match, from its start to the end of its last `.txt`, with group 1 what stands
before that `.txt`; the rest of the line is kept. -/
def replaceLine (isName : Char → Bool) (repl line : List Char) : List Char :=
  match splitLast ".txt".toList line with
  | none => line
  | some (pre, post) => goExpand isName (pre ++ ".txt".toList) pre .text repl ++ post

/-- Go's compiled pattern `(.*)\.txt`, given the test `isName` for the runes of a group
name (Go's `unicode.IsLetter`, `unicode.IsDigit` and the underscore). A text matches when
`.txt` occurs in it; every line is replaced on its own. -/
def txtRegexp (isName : Char → Bool) : Regexp :=
  { MatchString := fun s => (splitLast ".txt".toList s.toList).isSome
    ReplaceAllString := fun s repl =>
      String.mk (joinLines ((splitLines s.toList).map (replaceLine isName repl.toList))) }

/-- The runes of a group name in the ASCII range: letters, digits, the underscore. -/
def asciiName (c : Char) : Bool := c.isAlphanum || c == '_'

/-- Collaborators whose `regexp.Compile` knows the one pattern `(.*)\.txt`. -/
def txtDeps : Deps :=
  { plainDeps with
    Compile := fun pat =>
      if pat = "(.*)\\.txt" then .ok (txtRegexp asciiName)
      else .error (.Other "unsupported pattern") }

/-- The tree `a`, `d/b`, `d/e/`, `c` used in the examples. -/
def demoForest : List Tree :=
  [.file 1 "a", .dir 2 "d" [.file 3 "b", .dir 4 "e" []], .file 5 "c"]

/-- A state of the storage layer in memory: `demoForest` below `/s` and an empty `/t`. -/
def demoMem : Mem :=
  Mem.init [("/s", [⟨1, "a", false⟩, ⟨2, "d", true⟩, ⟨5, "c", false⟩]),
    ("/s/d", [⟨3, "b", false⟩, ⟨4, "e", true⟩]), ("/s/d/e", []), ("/t", [])]

/-! ## Lemmas -/

section Lemmas
variable {σ : Type}

theorem Tree.size_pos (t : Tree) : 0 < t.size := by
  cases t <;> simp [Tree.size]

theorem sizeQ_append (a b : List (String × Tree)) : sizeQ (a ++ b) = sizeQ a + sizeQ b := by
  induction a with
  | nil => simp [sizeQ]
  | cons e r ih => simp [sizeQ, ih, Nat.add_assoc]

theorem leavesQ_append (a b : List (String × Tree)) :
    leavesQ (a ++ b) = leavesQ a ++ leavesQ b := by
  induction a with
  | nil => simp [leavesQ]
  | cons e r ih => simp [leavesQ, ih]

theorem objsQ_append (a b : List (String × Tree)) : objsQ (a ++ b) = objsQ a ++ objsQ b := by
  induction a with
  | nil => simp [objsQ]
  | cons e r ih => simp [objsQ, ih]

theorem sizeQ_map (p : String) (ks : List Tree) :
    sizeQ (ks.map (fun k => (p, k))) = sizeL ks := by
  induction ks with
  | nil => simp [sizeQ, sizeL]
  | cons k r ih => simp [sizeQ, sizeL, ih]

theorem leavesQ_map (p : String) (ks : List Tree) :
    leavesQ (ks.map (fun k => (p, k))) = leavesL p ks := by
  induction ks with
  | nil => simp [leavesQ, leavesL]
  | cons k r ih => simp [leavesQ, leavesL, ih]

theorem objsQ_map (p : String) (ks : List Tree) :
    objsQ (ks.map (fun k => (p, k))) = objsL ks := by
  induction ks with
  | nil => simp [objsQ, objsL]
  | cons k r ih => simp [objsQ, objsL, ih]

theorem Tree.obj_mem_objs (t : Tree) : t.obj ∈ t.objs := by
  cases t <;> simp [Tree.obj, Tree.objs]

theorem obj_mem_objsL (ks : List Tree) : ∀ k ∈ ks, k.obj ∈ objsL ks := by
  induction ks with
  | nil => intro k hk; simp at hk
  | cons t r ih =>
    intro k hk
    simp only [objsL, List.mem_append]
    rcases List.mem_cons.1 hk with rfl | hk
    · exact Or.inl k.obj_mem_objs
    · exact Or.inr (ih k hk)

theorem obj_mem_objsQ (aq : List (String × Tree)) : ∀ e ∈ aq, e.2.obj ∈ objsQ aq := by
  induction aq with
  | nil => intro e he; simp at he
  | cons t r ih =>
    intro e he
    simp only [objsQ, List.mem_append]
    rcases List.mem_cons.1 he with rfl | he
    · exact Or.inl e.2.obj_mem_objs
    · exact Or.inr (ih e he)

theorem pushAll_eq (files : List Obj) (dir : String) (q : Queue) (m : Obj → String) :
    pushAll files dir q m = (q ++ files, fun x => if x ∈ files then dir else m x) := by
  induction files generalizing q m with
  | nil => simp [pushAll]
  | cons f r ih =>
    have h := ih (q ++ [f]) (setPath m f dir)
    simp only [pushAll, List.foldl_cons, Queue.Push] at h ⊢
    rw [h]
    refine Prod.ext (by simp) ?_
    funext x
    by_cases hx : x = f
    · simp [hx, setPath]
    · by_cases hr : x ∈ r <;> simp [hx, hr, setPath]

/-- A list in which every element but the last fails a test has at most one element that
passes it. -/
theorem countP_le_one_of_dropLast {α : Type} (f : α → Bool) (l : List α)
    (h : ∀ c ∈ l.dropLast, f c = false) : l.countP f ≤ 1 := by
  by_cases hl : l = []
  · simp [hl]
  · rw [← List.dropLast_append_getLast hl, List.countP_append]
    have h0 : l.dropLast.countP f = 0 := by
      rw [List.countP_eq_zero]
      intro c hc
      simp [h c hc]
    rw [h0, Nat.zero_add]
    exact List.countP_le_length f

/-! ### The flat batches -/

theorem FsMove_eq (d : Deps) (fs : Fs σ) (user : User) (req : MoveCopyReq) (s : σ)
    (srcDir dstDir : String) (hn : req.Names ≠ []) (hcan : user.CanMove = true)
    (hsrc : user.JoinPath req.SrcDir = .ok srcDir)
    (hdst : user.JoinPath req.DstDir = .ok dstDir) :
    FsMove d fs user (.ok req) s = moveNames d fs srcDir dstDir req.Names.length 0 req.Names s := by
  have hl : req.Names.length ≠ 0 := fun h => hn (List.length_eq_zero.1 h)
  simp [FsMove, hl, hcan, hsrc, hdst]

theorem FsCopy_eq (d : Deps) (fs : Fs σ) (user : User) (req : MoveCopyReq) (s : σ)
    (srcDir dstDir : String) (hn : req.Names ≠ []) (hcan : user.CanCopy = true)
    (hsrc : user.JoinPath req.SrcDir = .ok srcDir)
    (hdst : user.JoinPath req.DstDir = .ok dstDir) :
    FsCopy d fs user (.ok req) s =
      copyNames d fs srcDir dstDir req.Names.length 0 req.Names 0 s := by
  have hl : req.Names.length ≠ 0 := fun h => hn (List.length_eq_zero.1 h)
  simp [FsCopy, hl, hcan, hsrc, hdst]

theorem FsRemove_eq (d : Deps) (fs : Fs σ) (user : User) (req : RemoveReq) (s : σ)
    (reqDir : String) (hn : req.Names ≠ []) (hcan : user.CanRemove = true)
    (hdir : user.JoinPath req.Dir = .ok reqDir) :
    FsRemove d fs user (.ok req) s = removeNames d fs reqDir req.Names s := by
  have hl : req.Names.length ≠ 0 := fun h => hn (List.length_eq_zero.1 h)
  simp [FsRemove, hl, hcan, hdir]

/-- The call number `j` of the move loop is the move of name number `j`, with the flag
"more names follow". -/
theorem moveNames_calls (d : Deps) (fs : Fs σ) (srcDir dstDir : String) (n : Nat) :
    ∀ (names : List String) (i : Nat) (s : σ) (j : Nat) (c : Call),
      (moveNames d fs srcDir dstDir n i names s).2.1[j]? = some c →
      ∃ nm, names[j]? = some nm ∧ c.isMove (d.Join srcDir nm) dstDir = true ∧
        c.flagged = decide (i + j + 1 < n) := by
  intro names
  induction names with
  | nil => intro i s j c h; simp [moveNames] at h
  | cons name rest ih =>
    intro i s j c h
    simp only [moveNames] at h
    split at h
    · cases j with
      | zero =>
        simp only [List.getElem?_cons_zero, Option.some.injEq] at h
        subst h
        exact ⟨name, by simp, by simp [Call.isMove], by simp [Call.flagged]⟩
      | succ j => simp at h
    · cases j with
      | zero =>
        simp only [Out.after, List.getElem?_cons_zero, Option.some.injEq] at h
        subst h
        exact ⟨name, by simp, by simp [Call.isMove], by simp [Call.flagged]⟩
      | succ j =>
        simp only [Out.after, List.getElem?_cons_succ] at h
        obtain ⟨nm, h1, h2, h3⟩ := ih _ _ _ _ h
        refine ⟨nm, by simpa using h1, h2, ?_⟩
        rw [h3]
        congr 1
        apply propext
        omega

/-- A failing call of the move loop is its last call; its error is the response and the
calls before it succeeded. -/
theorem moveNames_fail (d : Deps) (fs : Fs σ) (srcDir dstDir : String) (n : Nat) :
    ∀ (names : List String) (i : Nat) (s : σ) (k : Nat) (e : Err),
      ((moveNames d fs srcDir dstDir n i names s).2.1[k]?).bind Call.err = some e →
      (moveNames d fs srcDir dstDir n i names s).1 = .ErrorResp e 500 ∧
      (moveNames d fs srcDir dstDir n i names s).2.1.length = k + 1 ∧
      ∀ j c, j < k → (moveNames d fs srcDir dstDir n i names s).2.1[j]? = some c →
        c.err = none := by
  intro names
  induction names with
  | nil => intro i s k e h; simp [moveNames] at h
  | cons name rest ih =>
    intro i s k e h
    simp only [moveNames] at h ⊢
    split at h
    · rename_i e0 s1 heq
      try simp only [heq]
      cases k with
      | zero =>
        simp only [List.getElem?_cons_zero, Option.some_bind, Call.err,
          Option.some.injEq] at h
        subst h
        exact ⟨rfl, rfl, fun j c hj => absurd hj (Nat.not_lt_zero j)⟩
      | succ k => simp at h
    · rename_i s1 heq
      try simp only [heq]
      cases k with
      | zero => simp [Out.after, Call.err] at h
      | succ k =>
        simp only [Out.after, List.getElem?_cons_succ] at h
        obtain ⟨h1, h2, h3⟩ := ih _ _ _ _ h
        refine ⟨h1, by simp [Out.after, h2], ?_⟩
        intro j c hj hc
        cases j with
        | zero =>
          simp only [Out.after, List.getElem?_cons_zero, Option.some.injEq] at hc
          subst hc
          rfl
        | succ j =>
          simp only [Out.after, List.getElem?_cons_succ] at hc
          exact h3 j c (by omega) hc

/-- A run of the move loop in which no call failed made a call for every name and answers
success. -/
theorem moveNames_ok (d : Deps) (fs : Fs σ) (srcDir dstDir : String) (n : Nat) :
    ∀ (names : List String) (i : Nat) (s : σ),
      (∀ c ∈ (moveNames d fs srcDir dstDir n i names s).2.1, c.err = none) →
      (moveNames d fs srcDir dstDir n i names s).1 = .SuccessResp none ∧
      (moveNames d fs srcDir dstDir n i names s).2.1.length = names.length := by
  intro names
  induction names with
  | nil => intro i s _; simp [moveNames]
  | cons name rest ih =>
    intro i s h
    simp only [moveNames] at h ⊢
    split
    · rename_i e0 s1 heq
      simp only [heq] at h
      have := h _ (List.mem_singleton.2 rfl)
      simp [Call.err] at this
    · rename_i s1 heq
      simp only [heq] at h
      have h1 := ih (i + 1) s1 (fun c hc => h c (by simp [Out.after, hc]))
      exact ⟨h1.1, by simp [Out.after, h1.2]⟩

/-- The call number `j` of the copy loop is the copy of name number `j`, with the flag
"more names follow". -/
theorem copyNames_calls (d : Deps) (fs : Fs σ) (srcDir dstDir : String) (n : Nat) :
    ∀ (names : List String) (i added : Nat) (s : σ) (j : Nat) (c : Call),
      (copyNames d fs srcDir dstDir n i names added s).2.1[j]? = some c →
      ∃ nm, names[j]? = some nm ∧ c.isCopy (d.Join srcDir nm) dstDir = true ∧
        c.flagged = decide (i + j + 1 < n) := by
  intro names
  induction names with
  | nil =>
    intro i added s j c h
    simp only [copyNames] at h
    split at h <;> simp at h
  | cons name rest ih =>
    intro i added s j c h
    simp only [copyNames] at h
    split at h
    · cases j with
      | zero =>
        simp only [List.getElem?_cons_zero, Option.some.injEq] at h
        subst h
        exact ⟨name, by simp, by simp [Call.isCopy], by simp [Call.flagged]⟩
      | succ j => simp at h
    · cases j with
      | zero =>
        simp only [Out.after, List.getElem?_cons_zero, Option.some.injEq] at h
        subst h
        exact ⟨name, by simp, by simp [Call.isCopy], by simp [Call.flagged]⟩
      | succ j =>
        simp only [Out.after, List.getElem?_cons_succ] at h
        obtain ⟨nm, h1, h2, h3⟩ := ih _ _ _ _ _ h
        refine ⟨nm, by simpa using h1, h2, ?_⟩
        rw [h3]
        congr 1
        apply propext
        omega

/-- A failing call of the copy loop is its last call; its error is the response and the
calls before it succeeded. -/
theorem copyNames_fail (d : Deps) (fs : Fs σ) (srcDir dstDir : String) (n : Nat) :
    ∀ (names : List String) (i added : Nat) (s : σ) (k : Nat) (e : Err),
      ((copyNames d fs srcDir dstDir n i names added s).2.1[k]?).bind Call.err = some e →
      (copyNames d fs srcDir dstDir n i names added s).1 = .ErrorResp e 500 ∧
      (copyNames d fs srcDir dstDir n i names added s).2.1.length = k + 1 ∧
      ∀ j c, j < k → (copyNames d fs srcDir dstDir n i names added s).2.1[j]? = some c →
        c.err = none := by
  intro names
  induction names with
  | nil =>
    intro i added s k e h
    simp only [copyNames] at h
    split at h <;> simp at h
  | cons name rest ih =>
    intro i added s k e h
    simp only [copyNames] at h ⊢
    split at h
    · cases k with
      | zero =>
        simp only [List.getElem?_cons_zero, Option.some_bind, Call.err,
          Option.some.injEq] at h
        subst h
        exact ⟨rfl, rfl, fun j c hj => absurd hj (Nat.not_lt_zero j)⟩
      | succ k => simp at h
    · cases k with
      | zero => simp [Out.after, Call.err] at h
      | succ k =>
        simp only [Out.after, List.getElem?_cons_succ] at h
        obtain ⟨h1, h2, h3⟩ := ih _ _ _ _ _ h
        refine ⟨h1, by simp [Out.after, h2], ?_⟩
        intro j c hj hc
        cases j with
        | zero =>
          simp only [Out.after, List.getElem?_cons_zero, Option.some.injEq] at hc
          subst hc
          rfl
        | succ j =>
          simp only [Out.after, List.getElem?_cons_succ] at hc
          exact h3 j c (by omega) hc

/-- A run of the copy loop in which no call failed made a call for every name and reports
the number of calls that answered "queued", added to the number it started with. -/
theorem copyNames_ok (d : Deps) (fs : Fs σ) (srcDir dstDir : String) (n : Nat) :
    ∀ (names : List String) (i added : Nat) (s : σ),
      (∀ c ∈ (copyNames d fs srcDir dstDir n i names added s).2.1, c.err = none) →
      (copyNames d fs srcDir dstDir n i names added s).2.1.length = names.length ∧
      (copyNames d fs srcDir dstDir n i names added s).1 =
        (if added + (copyNames d fs srcDir dstDir n i names added s).2.1.countP Call.queued > 0
          then .SuccessResp (some (.Str ("Added " ++
            toString (added + (copyNames d fs srcDir dstDir n i names added s).2.1.countP
              Call.queued) ++ " tasks")))
          else .SuccessResp none) := by
  intro names
  induction names with
  | nil =>
    intro i added s _
    simp only [copyNames]
    split <;> simp_all
  | cons name rest ih =>
    intro i added s h
    simp only [copyNames] at h ⊢
    split
    · rename_i ok e0 s1 heq
      try simp only [heq] at h
      have := h _ (List.mem_singleton.2 rfl)
      simp [Call.err] at this
    · rename_i ok s1 heq
      try simp only [heq] at h
      have h1 := ih (i + 1) (if ok = true then added + 1 else added) s1
        (fun c hc => h c (by simp [Out.after, hc]))
      refine ⟨by simp [Out.after, h1.1], ?_⟩
      simp only [Out.after]
      rw [h1.2]
      cases ok
      · simp [List.countP_cons, Call.queued]
      · simp only [if_true, List.countP_cons, Call.queued]
        have e1 : added + 1 + List.countP Call.queued
            (copyNames d fs srcDir dstDir n (i + 1) rest (added + 1) s1).2.1 =
            added + (List.countP Call.queued
              (copyNames d fs srcDir dstDir n (i + 1) rest (added + 1) s1).2.1 + 1) := by
          omega
        rw [e1]

/-- The call number `j` of the remove loop is the removal of name number `j`. -/
theorem removeNames_calls (d : Deps) (fs : Fs σ) (reqDir : String) :
    ∀ (names : List String) (s : σ) (j : Nat) (c : Call),
      (removeNames d fs reqDir names s).2.1[j]? = some c →
      ∃ nm, names[j]? = some nm ∧ c.isRemove (d.Join reqDir nm) = true := by
  intro names
  induction names with
  | nil => intro s j c h; simp [removeNames] at h
  | cons name rest ih =>
    intro s j c h
    simp only [removeNames] at h
    split at h
    · cases j with
      | zero =>
        simp only [List.getElem?_cons_zero, Option.some.injEq] at h
        subst h
        exact ⟨name, by simp, by simp [Call.isRemove]⟩
      | succ j => simp at h
    · cases j with
      | zero =>
        simp only [Out.after, List.getElem?_cons_zero, Option.some.injEq] at h
        subst h
        exact ⟨name, by simp, by simp [Call.isRemove]⟩
      | succ j =>
        simp only [Out.after, List.getElem?_cons_succ] at h
        obtain ⟨nm, h1, h2⟩ := ih _ _ _ h
        exact ⟨nm, by simpa using h1, h2⟩

/-- A failing call of the remove loop is its last call; its error is the response and the
calls before it succeeded. -/
theorem removeNames_fail (d : Deps) (fs : Fs σ) (reqDir : String) :
    ∀ (names : List String) (s : σ) (k : Nat) (e : Err),
      ((removeNames d fs reqDir names s).2.1[k]?).bind Call.err = some e →
      (removeNames d fs reqDir names s).1 = .ErrorResp e 500 ∧
      (removeNames d fs reqDir names s).2.1.length = k + 1 ∧
      ∀ j c, j < k → (removeNames d fs reqDir names s).2.1[j]? = some c → c.err = none := by
  intro names
  induction names with
  | nil => intro s k e h; simp [removeNames] at h
  | cons name rest ih =>
    intro s k e h
    simp only [removeNames] at h ⊢
    split at h
    · cases k with
      | zero =>
        simp only [List.getElem?_cons_zero, Option.some_bind, Call.err,
          Option.some.injEq] at h
        subst h
        exact ⟨rfl, rfl, fun j c hj => absurd hj (Nat.not_lt_zero j)⟩
      | succ k => simp at h
    · cases k with
      | zero => simp [Out.after, Call.err] at h
      | succ k =>
        simp only [Out.after, List.getElem?_cons_succ] at h
        obtain ⟨h1, h2, h3⟩ := ih _ _ _ h
        refine ⟨h1, by simp [Out.after, h2], ?_⟩
        intro j c hj hc
        cases j with
        | zero =>
          simp only [Out.after, List.getElem?_cons_zero, Option.some.injEq] at hc
          subst hc
          rfl
        | succ j =>
          simp only [Out.after, List.getElem?_cons_succ] at hc
          exact h3 j c (by omega) hc

/-- The loops never answer with the code 403. -/
theorem moveNames_code (d : Deps) (fs : Fs σ) (srcDir dstDir : String) (n : Nat) :
    ∀ (names : List String) (i : Nat) (s : σ) (e : Err),
      (moveNames d fs srcDir dstDir n i names s).1 ≠ .ErrorResp e 403 := by
  intro names
  induction names with
  | nil => intro i s e; simp [moveNames]
  | cons name rest ih =>
    intro i s e
    simp only [moveNames]
    split
    · simp
    · exact ih _ _ _

theorem copyNames_code (d : Deps) (fs : Fs σ) (srcDir dstDir : String) (n : Nat) :
    ∀ (names : List String) (i added : Nat) (s : σ) (e : Err),
      (copyNames d fs srcDir dstDir n i names added s).1 ≠ .ErrorResp e 403 := by
  intro names
  induction names with
  | nil =>
    intro i added s e
    simp only [copyNames]
    split <;> simp
  | cons name rest ih =>
    intro i added s e
    simp only [copyNames]
    split
    · simp
    · exact ih _ _ _ _

theorem removeNames_code (d : Deps) (fs : Fs σ) (reqDir : String) :
    ∀ (names : List String) (s : σ) (e : Err),
      (removeNames d fs reqDir names s).1 ≠ .ErrorResp e 403 := by
  intro names
  induction names with
  | nil => intro s e; simp [removeNames]
  | cons name rest ih =>
    intro s e
    simp only [removeNames]
    split
    · simp
    · exact ih _ _

theorem dirNodesQ_append (a b : List (String × Tree)) :
    dirNodesQ (a ++ b) = dirNodesQ a ++ dirNodesQ b := by
  induction a with
  | nil => simp [dirNodesQ]
  | cons e r ih => simp [dirNodesQ, ih]

theorem dirNodesQ_map (p : String) (ks : List Tree) :
    dirNodesQ (ks.map (fun k => (p, k))) = dirNodesL p ks := by
  induction ks with
  | nil => simp [dirNodesQ, dirNodesL]
  | cons k r ih => simp [dirNodesQ, dirNodesL, ih]

/-- A listing that was answered as in the tree returned the objects of the entries of every
directory the tree has at that path. -/
theorem goodCall_list (table : List (String × List Tree)) (p : String) (b : Bool)
    (res : Except Err (List Obj)) (ks : List Tree)
    (h : goodCall table (.List p b res) = true) (hmem : (p, ks) ∈ table) :
    res = .ok (ks.map Tree.obj) := by
  simp only [goodCall, List.all_eq_true] at h
  have h1 := h (p, ks) hmem
  simpa using h1

theorem moveQueue_nil (fs : Fs σ) (dstDir : String) (fuel : Nat) (m : Obj → String) (s : σ) :
    moveQueue fs dstDir fuel [] m s = (some (.SuccessResp none), [], s) := by
  cases fuel <;> rfl

theorem moveQueue_dir_ok (fs : Fs σ) (dstDir : String) (fuel : Nat) (o : Obj) (q : Queue)
    (m : Obj → String) (s s1 : σ) (subs : List Obj) (path : String) (hd : o.isDir = true)
    (hpath : m o ++ "/" ++ o.name = path)
    (hl : fs.List s path true = (.ok subs, s1)) :
    moveQueue fs dstDir (fuel + 1) (o :: q) m s =
      (moveQueue fs dstDir fuel (q ++ subs) (fun x => if x ∈ subs then path else m x) s1).after
        (.List path true (.ok subs)) := by
  subst hpath
  simp [moveQueue, hd, hl, pushAll_eq]

theorem moveQueue_dir_err (fs : Fs σ) (dstDir : String) (fuel : Nat) (o : Obj) (q : Queue)
    (m : Obj → String) (s s1 : σ) (e : Err) (path : String) (hd : o.isDir = true)
    (hpath : m o ++ "/" ++ o.name = path)
    (hl : fs.List s path true = (.error e, s1)) :
    moveQueue fs dstDir (fuel + 1) (o :: q) m s =
      (some (.ErrorResp e 500), [.List path true (.error e)], s1) := by
  subst hpath
  simp [moveQueue, hd, hl]

theorem moveQueue_skip (fs : Fs σ) (dstDir : String) (fuel : Nat) (o : Obj) (q : Queue)
    (m : Obj → String) (s : σ) (hd : o.isDir = false)
    (hp : m o ++ "/" ++ o.name = dstDir) :
    moveQueue fs dstDir (fuel + 1) (o :: q) m s = moveQueue fs dstDir fuel q m s := by
  simp [moveQueue, hd, hp]

theorem moveQueue_move_ok (fs : Fs σ) (dstDir : String) (fuel : Nat) (o : Obj) (q : Queue)
    (m : Obj → String) (s s1 : σ) (path : String) (hd : o.isDir = false)
    (hpath : m o ++ "/" ++ o.name = path) (hp : path ≠ dstDir)
    (hm : fs.Move s path dstDir q.isEmpty = (none, s1)) :
    moveQueue fs dstDir (fuel + 1) (o :: q) m s =
      (moveQueue fs dstDir fuel q m s1).after (.Move path dstDir q.isEmpty none) := by
  subst hpath
  simp [moveQueue, hd, hp, hm]

theorem moveQueue_move_err (fs : Fs σ) (dstDir : String) (fuel : Nat) (o : Obj) (q : Queue)
    (m : Obj → String) (s s1 : σ) (e : Err) (path : String) (hd : o.isDir = false)
    (hpath : m o ++ "/" ++ o.name = path) (hp : path ≠ dstDir)
    (hm : fs.Move s path dstDir q.isEmpty = (some e, s1)) :
    moveQueue fs dstDir (fuel + 1) (o :: q) m s =
      (some (.ErrorResp e 500), [.Move path dstDir q.isEmpty (some e)], s1) := by
  subst hpath
  simp [moveQueue, hd, hp, hm]

/-- Every run of the loop replays on the storage layer: the calls recorded are the calls
made, with the outcomes the storage layer gave, and the state returned is the state the
last call left. -/
theorem moveQueue_faithful (fs : Fs σ) (dstDir : String) :
    ∀ (fuel : Nat) (q : Queue) (m : Obj → String) (s : σ),
      Faithful fs s (moveQueue fs dstDir fuel q m s).2.1 (moveQueue fs dstDir fuel q m s).2.2 := by
  intro fuel
  induction fuel with
  | zero =>
    intro q m s
    cases q <;> simp [moveQueue, Faithful]
  | succ fuel ih =>
    intro q m s
    cases q with
    | nil => simp [moveQueue, Faithful]
    | cons o q =>
      by_cases hd : o.isDir = true
      · rcases hfs : fs.List s (m o ++ "/" ++ o.name) true with ⟨res, s1⟩
        cases res with
        | error e =>
          rw [moveQueue_dir_err fs dstDir fuel o q m s s1 e _ hd rfl hfs]
          simp [Faithful, hfs]
        | ok subs =>
          rw [moveQueue_dir_ok fs dstDir fuel o q m s s1 subs _ hd rfl hfs]
          simp only [Run.after, Faithful, hfs, true_and]
          exact ih _ _ _
      · have hd1 : o.isDir = false := by simpa using hd
        by_cases hp : m o ++ "/" ++ o.name = dstDir
        · rw [moveQueue_skip fs dstDir fuel o q m s hd1 hp]
          exact ih _ _ _
        · rcases hfs : fs.Move s (m o ++ "/" ++ o.name) dstDir q.isEmpty with ⟨res, s1⟩
          cases res with
          | some e =>
            rw [moveQueue_move_err fs dstDir fuel o q m s s1 e _ hd1 rfl hp hfs]
            simp [Faithful, hfs]
          | none =>
            rw [moveQueue_move_ok fs dstDir fuel o q m s s1 _ hd1 rfl hp hfs]
            simp only [Run.after, Faithful, hfs, true_and]
            exact ih _ _ _

/-- A call put in front of a run: when it is no flagged move, or the run after it made no
call, the calls but the last one carry no flag as soon as those of the run carry none. -/
theorem after_flagged_last (c0 : Call) (r : Run σ)
    (h0 : c0.flagged = true → r.2.1 = [])
    (hr : ∀ c ∈ r.2.1.dropLast, c.flagged = false) :
    ∀ c ∈ (r.after c0).2.1.dropLast, c.flagged = false := by
  intro c hc
  simp only [Run.after] at hc
  cases htr : r.2.1 with
  | nil => simp [htr] at hc
  | cons c2 tr3 =>
    rw [htr, List.dropLast_cons₂] at hc
    rcases List.mem_cons.1 hc with rfl | hc
    · cases hf : c.flagged
      · rfl
      · rw [h0 hf] at htr
        cases htr
    · exact hr c (by rw [htr]; exact hc)

/-- In every run of the loop, no call but the last one is a terminal move that carries the
flag `true`. -/
theorem moveQueue_flagged_last (fs : Fs σ) (dstDir : String) :
    ∀ (fuel : Nat) (q : Queue) (m : Obj → String) (s : σ),
      ∀ c ∈ (moveQueue fs dstDir fuel q m s).2.1.dropLast, c.flagged = false := by
  intro fuel
  induction fuel with
  | zero =>
    intro q m s
    cases q <;> simp [moveQueue]
  | succ fuel ih =>
    intro q m s
    cases q with
    | nil => simp [moveQueue]
    | cons o q =>
      by_cases hd : o.isDir = true
      · rcases hfs : fs.List s (m o ++ "/" ++ o.name) true with ⟨res, s1⟩
        cases res with
        | error e =>
          rw [moveQueue_dir_err fs dstDir fuel o q m s s1 e _ hd rfl hfs]
          simp
        | ok subs =>
          rw [moveQueue_dir_ok fs dstDir fuel o q m s s1 subs _ hd rfl hfs]
          exact after_flagged_last _ _ (by simp [Call.flagged]) (ih _ _ _)
      · have hd1 : o.isDir = false := by simpa using hd
        by_cases hp : m o ++ "/" ++ o.name = dstDir
        · rw [moveQueue_skip fs dstDir fuel o q m s hd1 hp]
          exact ih _ _ _
        · rcases hfs : fs.Move s (m o ++ "/" ++ o.name) dstDir q.isEmpty with ⟨res, s1⟩
          cases res with
          | some e =>
            rw [moveQueue_move_err fs dstDir fuel o q m s s1 e _ hd1 rfl hp hfs]
            simp
          | none =>
            rw [moveQueue_move_ok fs dstDir fuel o q m s s1 _ hd1 rfl hp hfs]
            refine after_flagged_last _ _ ?_ (ih _ _ _)
            intro hf
            simp only [Call.flagged, List.isEmpty_iff] at hf
            subst hf
            simp [moveQueue_nil]

/-- The loop on a queue that holds a forest, with all objects distinct and `filePathMap`
giving each queued object its directory, in a run all of whose calls were answered as in the
tree: with a pop for every object the loop ends in success, its terminal moves are the files
whose path is not `dstDir`, and (when nothing is skipped) it makes a call for every entry
and passes `true` to a move that is its last call. -/
theorem moveQueue_forest (fs : Fs σ) (dstDir : String) (table : List (String × List Tree)) :
    ∀ (fuel : Nat) (aq : List (String × Tree)) (m : Obj → String) (s : σ),
      sizeQ aq ≤ fuel → (∀ e ∈ dirNodesQ aq, e ∈ table) → (objsQ aq).Nodup →
      (∀ e ∈ aq, m e.2.obj = e.1) →
      (∀ c ∈ (moveQueue fs dstDir fuel (aq.map (fun e => e.2.obj)) m s).2.1,
        goodCall table c = true) →
      (moveQueue fs dstDir fuel (aq.map (fun e => e.2.obj)) m s).1
          = some (.SuccessResp none) ∧
      (moveArgs (moveQueue fs dstDir fuel (aq.map (fun e => e.2.obj)) m s).2.1).Perm
        (((leavesQ aq).filter (fun p => decide (p ≠ dstDir))).map (fun p => (p, dstDir))) ∧
      ((∀ p ∈ leavesQ aq, p ≠ dstDir) →
        (aq ≠ [] → (moveQueue fs dstDir fuel (aq.map (fun e => e.2.obj)) m s).2.1 ≠ []) ∧
          ∀ a b f e,
            (moveQueue fs dstDir fuel (aq.map (fun e => e.2.obj)) m s).2.1.getLast?
              = some (.Move a b f e) → f = true) := by
  intro fuel
  induction fuel with
  | zero =>
    intro aq m s hsz _ _ _ _
    cases aq with
    | nil => simp [moveQueue_nil, moveArgs, leavesQ]
    | cons e r =>
      have := e.2.size_pos
      simp only [sizeQ] at hsz
      omega
  | succ fuel ih =>
    intro aq m s hsz htab hnd hm hgood
    cases aq with
    | nil => simp [moveQueue_nil, moveArgs, leavesQ]
    | cons e r =>
      obtain ⟨p, t⟩ := e
      have hmp : m t.obj = p := hm (p, t) (by simp)
      cases t with
      | file ptr name =>
        have hsz1 : sizeQ r ≤ fuel := by
          simp only [sizeQ, Tree.size] at hsz
          omega
        have htab1 : ∀ e ∈ dirNodesQ r, e ∈ table := by
          intro e he
          exact htab e (by simp only [dirNodesQ, List.mem_append]; exact Or.inr he)
        have hnd1 : (objsQ r).Nodup := by
          simp only [objsQ, Tree.objs, List.singleton_append, List.nodup_cons] at hnd
          exact hnd.2
        have hm1 : ∀ e ∈ r, m e.2.obj = e.1 := fun e he => hm e (List.mem_cons_of_mem _ he)
        simp only [Tree.obj] at hmp
        have hpath : m (Tree.file ptr name).obj ++ "/" ++ (Tree.file ptr name).obj.name
            = p ++ "/" ++ name := by
          simp only [Tree.obj]
          rw [hmp]
        rw [List.map_cons] at hgood ⊢
        by_cases hp : p ++ "/" ++ name = dstDir
        · have heq := moveQueue_skip fs dstDir fuel (Tree.file ptr name).obj
            (r.map (fun e => e.2.obj)) m s rfl (hpath.trans hp)
          rw [heq] at hgood ⊢
          obtain ⟨hrun, hmv, _⟩ := ih r m s hsz1 htab1 hnd1 hm1 hgood
          refine ⟨hrun, ?_, ?_⟩
          · simpa [leavesQ, Tree.leaves, hp] using hmv
          · intro hno
            exact absurd hp (hno _ (by simp [leavesQ, Tree.leaves]))
        · rcases hfs : fs.Move s (p ++ "/" ++ name) dstDir
            (r.map (fun e => e.2.obj)).isEmpty with ⟨res, s1⟩
          cases res with
          | some e =>
            have heq := moveQueue_move_err fs dstDir fuel (Tree.file ptr name).obj
              (r.map (fun e => e.2.obj)) m s s1 e _ rfl hpath hp hfs
            rw [heq] at hgood
            have h := hgood _ (List.mem_singleton.2 rfl)
            simp [goodCall] at h
          | none =>
            have heq := moveQueue_move_ok fs dstDir fuel (Tree.file ptr name).obj
              (r.map (fun e => e.2.obj)) m s s1 _ rfl hpath hp hfs
            rw [heq] at hgood ⊢
            have hgood1 : ∀ c ∈ (moveQueue fs dstDir fuel (r.map (fun e => e.2.obj)) m s1).2.1,
                goodCall table c = true :=
              fun c hc => hgood c (by simp only [Run.after]; exact List.mem_cons_of_mem _ hc)
            obtain ⟨hrun, hmv, hlast⟩ := ih r m s1 hsz1 htab1 hnd1 hm1 hgood1
            refine ⟨hrun, ?_, ?_⟩
            · simpa [Run.after, moveArgs, leavesQ, Tree.leaves, hp] using hmv
            · intro hno
              have hno1 : ∀ q ∈ leavesQ r, q ≠ dstDir :=
                fun q hq => hno q (by simp only [leavesQ, List.mem_append]; exact Or.inr hq)
              obtain ⟨hne, hl⟩ := hlast hno1
              refine ⟨by simp [Run.after], ?_⟩
              intro a b f e hlastc
              simp only [Run.after] at hlastc
              cases htr : (moveQueue fs dstDir fuel (r.map (fun e => e.2.obj)) m s1).2.1 with
              | nil =>
                rw [htr] at hlastc
                simp only [List.getLast?_singleton, Option.some.injEq, Call.Move.injEq]
                  at hlastc
                obtain ⟨-, -, hf, -⟩ := hlastc
                rw [← hf]
                by_cases hr : r = []
                · simp [hr]
                · exact absurd htr (hne hr)
              | cons c tr1 =>
                rw [htr, List.getLast?_cons_cons] at hlastc
                exact hl a b f e (by rw [htr]; exact hlastc)
      | dir ptr name ks =>
        simp only [Tree.obj] at hmp
        have hpath : m (Tree.dir ptr name ks).obj ++ "/" ++ (Tree.dir ptr name ks).obj.name
            = p ++ "/" ++ name := by
          simp only [Tree.obj]
          rw [hmp]
        have hself : (p ++ "/" ++ name, ks) ∈ table :=
          htab _ (by simp [dirNodesQ, Tree.dirNodes])
        rw [List.map_cons] at hgood ⊢
        rcases hfs : fs.List s (p ++ "/" ++ name) true with ⟨res, s1⟩
        cases res with
        | error e =>
          have heq := moveQueue_dir_err fs dstDir fuel (Tree.dir ptr name ks).obj
            (r.map (fun e => e.2.obj)) m s s1 e _ rfl hpath hfs
          rw [heq] at hgood
          have h := goodCall_list table _ _ _ ks (hgood _ (List.mem_singleton.2 rfl)) hself
          cases h
        | ok subs =>
          have heq := moveQueue_dir_ok fs dstDir fuel (Tree.dir ptr name ks).obj
            (r.map (fun e => e.2.obj)) m s s1 subs _ rfl hpath hfs
          rw [heq] at hgood ⊢
          have hsubs : subs = ks.map Tree.obj := by
            have h := goodCall_list table _ _ _ ks
              (hgood _ (by simp only [Run.after]; exact List.mem_cons_self _ _)) hself
            simpa using h
          subst hsubs
          have hq : (r ++ ks.map (fun k => (p ++ "/" ++ name, k))).map (fun e => e.2.obj)
              = r.map (fun e => e.2.obj) ++ ks.map Tree.obj := by
            simp [List.map_append, List.map_map, Function.comp_def]
          rw [← hq] at hgood ⊢
          have hsz1 : sizeQ (r ++ ks.map (fun k => (p ++ "/" ++ name, k))) ≤ fuel := by
            rw [sizeQ_append, sizeQ_map]
            simp only [sizeQ, Tree.size] at hsz
            omega
          have htab1 : ∀ e ∈ dirNodesQ (r ++ ks.map (fun k => (p ++ "/" ++ name, k))),
              e ∈ table := by
            intro e he
            refine htab e ?_
            simp only [dirNodesQ_append, dirNodesQ_map, List.mem_append] at he
            simp only [dirNodesQ, Tree.dirNodes, List.cons_append, List.mem_cons,
              List.mem_append]
            rcases he with he | he
            · exact Or.inr (Or.inr he)
            · exact Or.inr (Or.inl he)
          have hnd0 : (objsL ks ++ objsQ r).Nodup := by
            simp only [objsQ, Tree.objs, List.cons_append, List.nodup_cons] at hnd
            exact hnd.2
          have hnd1 : (objsQ (r ++ ks.map (fun k => (p ++ "/" ++ name, k)))).Nodup := by
            rw [objsQ_append, objsQ_map]
            exact (List.perm_append_comm.nodup_iff).1 hnd0
          have hm1 : ∀ e ∈ r ++ ks.map (fun k => (p ++ "/" ++ name, k)),
              (fun x => if x ∈ ks.map Tree.obj then p ++ "/" ++ name else m x) e.2.obj
                = e.1 := by
            intro e he
            rcases List.mem_append.1 he with h | h
            · have h1 : e.2.obj ∈ objsQ r := obj_mem_objsQ r e h
              have h2 : e.2.obj ∉ ks.map Tree.obj := by
                intro hc
                obtain ⟨k, hk, hke⟩ := List.mem_map.1 hc
                have h3 := obj_mem_objsL ks k hk
                rw [hke] at h3
                exact (List.nodup_append.1 hnd0).2.2 h3 h1
              simp only [h2, if_false]
              exact hm e (List.mem_cons_of_mem _ h)
            · obtain ⟨k, hk, rfl⟩ := List.mem_map.1 h
              have h2 : k.obj ∈ ks.map Tree.obj := List.mem_map_of_mem _ hk
              simp only [h2, if_true]
          have hgood1 : ∀ c ∈ (moveQueue fs dstDir fuel
              ((r ++ ks.map (fun k => (p ++ "/" ++ name, k))).map (fun e => e.2.obj))
              (fun x => if x ∈ ks.map Tree.obj then p ++ "/" ++ name else m x) s1).2.1,
              goodCall table c = true :=
            fun c hc => hgood c (by simp only [Run.after]; exact List.mem_cons_of_mem _ hc)
          obtain ⟨hrun, hmv, hlast⟩ := ih _
            (fun x => if x ∈ ks.map Tree.obj then p ++ "/" ++ name else m x) s1
            hsz1 htab1 hnd1 hm1 hgood1
          refine ⟨hrun, ?_, ?_⟩
          · simp only [Run.after, moveArgs]
            refine hmv.trans ?_
            simp only [leavesQ, Tree.leaves, leavesQ_append, leavesQ_map]
            exact (List.perm_append_comm.filter _).map _
          · intro hno
            have hno1 : ∀ q ∈ leavesQ (r ++ ks.map (fun k => (p ++ "/" ++ name, k))),
                q ≠ dstDir := by
              intro q hq
              refine hno q ?_
              simp only [leavesQ_append, leavesQ_map, List.mem_append] at hq
              simp only [leavesQ, Tree.leaves, List.mem_append]
              exact hq.symm
            obtain ⟨_, hl⟩ := hlast hno1
            refine ⟨by simp [Run.after], ?_⟩
            intro a b f e hlastc
            simp only [Run.after] at hlastc
            cases htr : (moveQueue fs dstDir fuel
                ((r ++ ks.map (fun k => (p ++ "/" ++ name, k))).map (fun e => e.2.obj))
                (fun x => if x ∈ ks.map Tree.obj then p ++ "/" ++ name else m x) s1).2.1 with
            | nil =>
              rw [htr] at hlastc
              simp at hlastc
            | cons c tr1 =>
              rw [htr, List.getLast?_cons_cons] at hlastc
              exact hl a b f e (by rw [htr]; exact hlastc)

/-- The recursive move after its checks: the listing of the source directory, then the
loop. -/
theorem FsRecursiveMove_eq (d : Deps) (fs : Fs σ) (user : User) (req : RecursiveMoveReq)
    (s : σ) (srcDir dstDir : String) (fuel : Nat)
    (hcan : user.CanMove = true)
    (hsrc : user.JoinPath req.SrcDir = .ok srcDir)
    (hdst : user.JoinPath req.DstDir = .ok dstDir)
    (hmeta : metaFatal (d.GetNearestMeta srcDir).2 = none) :
    FsRecursiveMove d fs user (.ok req) fuel s =
      match fs.List (fs.SetMeta s (d.GetNearestMeta srcDir).1) srcDir false with
      | (.error e, s1) => (some (.ErrorResp e 500), [.List srcDir false (.error e)], s1)
      | (.ok rootFiles, s1) =>
        (moveQueue fs dstDir fuel rootFiles
          (fun x => if x ∈ rootFiles then srcDir else "") s1).after
          (.List srcDir false (.ok rootFiles)) := by
  simp only [FsRecursiveMove, hcan, hsrc, hdst, hmeta]
  split <;> simp_all [pushAll_eq]

/-- Every run of the recursive move that got past its checks replays on the storage layer
from the state in which the meta record was put in the context. -/
theorem FsRecursiveMove_faithful (d : Deps) (fs : Fs σ) (user : User) (req : RecursiveMoveReq)
    (s : σ) (srcDir dstDir : String) (fuel : Nat)
    (hcan : user.CanMove = true)
    (hsrc : user.JoinPath req.SrcDir = .ok srcDir)
    (hdst : user.JoinPath req.DstDir = .ok dstDir)
    (hmeta : metaFatal (d.GetNearestMeta srcDir).2 = none) :
    Faithful fs (fs.SetMeta s (d.GetNearestMeta srcDir).1)
      (FsRecursiveMove d fs user (.ok req) fuel s).2.1
      (FsRecursiveMove d fs user (.ok req) fuel s).2.2 := by
  rw [FsRecursiveMove_eq d fs user req s srcDir dstDir fuel hcan hsrc hdst hmeta]
  rcases hfs : fs.List (fs.SetMeta s (d.GetNearestMeta srcDir).1) srcDir false with ⟨res, s0⟩
  cases res with
  | error e => simp [Faithful, hfs]
  | ok rootFiles =>
    simp only [Run.after, Faithful, hfs, true_and]
    exact moveQueue_faithful fs dstDir _ _ _ _

/-- In every run of the recursive move, no call but the last one is a terminal move that
carries the flag `true`. -/
theorem FsRecursiveMove_flagged_last (d : Deps) (fs : Fs σ) (user : User)
    (bind : Except Err RecursiveMoveReq) (fuel : Nat) (s : σ) :
    ∀ c ∈ (FsRecursiveMove d fs user bind fuel s).2.1.dropLast, c.flagged = false := by
  simp only [FsRecursiveMove]
  split
  · simp
  · split
    · simp
    · split
      · simp
      · split
        · simp
        · split
          · simp
          · split
            · simp
            · exact after_flagged_last _ _ (by simp [Call.flagged])
                (moveQueue_flagged_last fs _ fuel _ _ _)

/-- The recursive move on a forest below `srcDir` whose objects are distinct, in a run all of
whose calls were answered as in the tree and with a pop for every object: the run ends in
success, its terminal moves are the files whose path is not `dstDir`, and (when nothing is
skipped) a move that is its last call is passed `true`. -/
theorem FsRecursiveMove_forest (d : Deps) (fs : Fs σ) (user : User) (req : RecursiveMoveReq)
    (s : σ) (srcDir dstDir : String) (forest : List Tree) (fuel : Nat)
    (hcan : user.CanMove = true)
    (hsrc : user.JoinPath req.SrcDir = .ok srcDir)
    (hdst : user.JoinPath req.DstDir = .ok dstDir)
    (hmeta : metaFatal (d.GetNearestMeta srcDir).2 = none)
    (hnd : (objsL forest).Nodup)
    (hfuel : sizeL forest ≤ fuel)
    (hgood : ∀ c ∈ (FsRecursiveMove d fs user (.ok req) fuel s).2.1,
      goodCall (dirTable srcDir forest) c = true) :
    (FsRecursiveMove d fs user (.ok req) fuel s).1 = some (.SuccessResp none) ∧
    (moveArgs (FsRecursiveMove d fs user (.ok req) fuel s).2.1).Perm
      (((leavesL srcDir forest).filter (fun p => decide (p ≠ dstDir))).map
        (fun p => (p, dstDir))) ∧
    ((∀ p ∈ leavesL srcDir forest, p ≠ dstDir) →
      ∀ a b f e, (FsRecursiveMove d fs user (.ok req) fuel s).2.1.getLast?
        = some (.Move a b f e) → f = true) := by
  rw [FsRecursiveMove_eq d fs user req s srcDir dstDir fuel hcan hsrc hdst hmeta] at hgood ⊢
  have hself : (srcDir, forest) ∈ dirTable srcDir forest := by simp [dirTable]
  rcases hfs : fs.List (fs.SetMeta s (d.GetNearestMeta srcDir).1) srcDir false with ⟨res, s0⟩
  rw [hfs] at hgood
  cases res with
  | error e =>
    have h := goodCall_list _ _ _ _ forest (hgood _ (List.mem_singleton.2 rfl)) hself
    cases h
  | ok rootFiles =>
    have hroot : rootFiles = forest.map Tree.obj := by
      have h := goodCall_list _ _ _ _ forest
        (hgood _ (by simp only [Run.after]; exact List.mem_cons_self _ _)) hself
      simpa using h
    subst hroot
    have hq : (forest.map (fun k => (srcDir, k))).map (fun e => e.2.obj)
        = forest.map Tree.obj := by
      simp [List.map_map, Function.comp_def]
    have hm : ∀ e ∈ forest.map (fun k => (srcDir, k)),
        (fun x => if x ∈ forest.map Tree.obj then srcDir else "") e.2.obj = e.1 := by
      intro e he
      obtain ⟨k, hk, rfl⟩ := List.mem_map.1 he
      have h2 : k.obj ∈ forest.map Tree.obj := List.mem_map_of_mem _ hk
      simp only [h2, if_true]
    have hgood1 : ∀ c ∈ (moveQueue fs dstDir fuel
        ((forest.map (fun k => (srcDir, k))).map (fun e => e.2.obj))
        (fun x => if x ∈ forest.map Tree.obj then srcDir else "") s0).2.1,
        goodCall (dirTable srcDir forest) c = true := by
      intro c hc
      rw [hq] at hc
      exact hgood c (by simp only [Run.after]; exact List.mem_cons_of_mem _ hc)
    obtain ⟨hrun, hmv, hlast⟩ :=
      moveQueue_forest fs dstDir (dirTable srcDir forest) fuel
        (forest.map (fun k => (srcDir, k)))
        (fun x => if x ∈ forest.map Tree.obj then srcDir else "") s0
        (by rw [sizeQ_map]; exact hfuel)
        (by
          intro e he
          rw [dirNodesQ_map] at he
          exact List.mem_cons_of_mem _ he)
        (by rw [objsQ_map]; exact hnd) hm hgood1
    rw [hq] at hrun hmv hlast
    refine ⟨hrun, ?_, ?_⟩
    · simpa only [Run.after, moveArgs, leavesQ_map] using hmv
    · intro hno a b f e hl
      simp only [Run.after] at hl
      cases htr : (moveQueue fs dstDir fuel (forest.map Tree.obj)
          (fun x => if x ∈ forest.map Tree.obj then srcDir else "") s0).2.1 with
      | nil =>
        rw [htr] at hl
        simp at hl
      | cons c tr1 =>
        rw [htr, List.getLast?_cons_cons] at hl
        exact (hlast (by simpa only [leavesQ_map] using hno)).2 a b f e (by rw [htr]; exact hl)

/-- Every run of the move loop replays on the storage layer. -/
theorem moveNames_faithful (d : Deps) (fs : Fs σ) (srcDir dstDir : String) (n : Nat) :
    ∀ (names : List String) (i : Nat) (s : σ),
      Faithful fs s (moveNames d fs srcDir dstDir n i names s).2.1
        (moveNames d fs srcDir dstDir n i names s).2.2 := by
  intro names
  induction names with
  | nil => intro i s; simp [moveNames, Faithful]
  | cons name rest ih =>
    intro i s
    rcases hfs : fs.Move s (d.Join srcDir name) dstDir (decide (n > i + 1)) with ⟨res, s1⟩
    cases res with
    | some e => simp [moveNames, hfs, Faithful]
    | none =>
      simp only [moveNames, hfs, Out.after, Faithful, true_and]
      exact ih _ _

/-- Every run of the copy loop replays on the storage layer. -/
theorem copyNames_faithful (d : Deps) (fs : Fs σ) (srcDir dstDir : String) (n : Nat) :
    ∀ (names : List String) (i added : Nat) (s : σ),
      Faithful fs s (copyNames d fs srcDir dstDir n i names added s).2.1
        (copyNames d fs srcDir dstDir n i names added s).2.2 := by
  intro names
  induction names with
  | nil =>
    intro i added s
    simp only [copyNames]
    split <;> simp [Faithful]
  | cons name rest ih =>
    intro i added s
    rcases hfs : fs.Copy s (d.Join srcDir name) dstDir (decide (n > i + 1))
      with ⟨⟨ok, res⟩, s1⟩
    cases res with
    | some e => simp [copyNames, hfs, Faithful]
    | none =>
      simp only [copyNames, hfs, Out.after, Faithful, true_and]
      exact ih _ _ _

/-- Every run of the rename loop replays on the storage layer. -/
theorem renameFiles_faithful (fs : Fs σ) (re : Regexp) (reqPath repl : String) :
    ∀ (files : List Obj) (s : σ),
      Faithful fs s (renameFiles fs re reqPath repl files s).2.1
        (renameFiles fs re reqPath repl files s).2.2 := by
  intro files
  induction files with
  | nil => intro s; simp [renameFiles, Faithful]
  | cons f rest ih =>
    intro s
    by_cases hmatch : re.MatchString f.name = true
    · rcases hfs : fs.Rename s (reqPath ++ "/" ++ f.name) (re.ReplaceAllString f.name repl)
        with ⟨res, s1⟩
      cases res with
      | some e => simp [renameFiles, hmatch, hfs, Faithful]
      | none =>
        simp only [renameFiles, hmatch, if_true, hfs, Out.after, Faithful, true_and]
        exact ih _
    · have hm : re.MatchString f.name = false := by simpa using hmatch
      simp only [renameFiles, hm, Bool.false_eq_true, if_false]
      exact ih _

/-- A run of the rename loop in which no rename failed renamed the files whose name matches,
in the order of the listing, and answers success. -/
theorem renameFiles_ok (fs : Fs σ) (re : Regexp) (reqPath repl : String) :
    ∀ (files : List Obj) (s : σ),
      (∀ c ∈ (renameFiles fs re reqPath repl files s).2.1, c.err = none) →
      (renameFiles fs re reqPath repl files s).1 = .SuccessResp none ∧
      (renameFiles fs re reqPath repl files s).2.1 =
        (files.filter (fun f => re.MatchString f.name)).map
          (fun f => .Rename (reqPath ++ "/" ++ f.name) (re.ReplaceAllString f.name repl)
            none) := by
  intro files
  induction files with
  | nil => intro s _; simp [renameFiles]
  | cons f rest ih =>
    intro s hok
    by_cases hmatch : re.MatchString f.name = true
    · rcases hfs : fs.Rename s (reqPath ++ "/" ++ f.name) (re.ReplaceAllString f.name repl)
        with ⟨res, s1⟩
      cases res with
      | some e =>
        have h := hok (.Rename (reqPath ++ "/" ++ f.name) (re.ReplaceAllString f.name repl)
          (some e)) (by simp [renameFiles, hmatch, hfs])
        simp [Call.err] at h
      | none =>
        have h1 := ih s1 (fun c hc => hok c (by simp [renameFiles, hmatch, hfs, Out.after, hc]))
        simp [renameFiles, hmatch, hfs, Out.after, h1.1, h1.2, List.filter_cons]
    · have hm : re.MatchString f.name = false := by simpa using hmatch
      have h1 := ih s (fun c hc => hok c (by simpa [renameFiles, hm] using hc))
      simp [renameFiles, hm, h1.1, h1.2, List.filter_cons]

end Lemmas

/-! ## The claims -/

section Claims
variable {σ : Type}

/-- C1, counterexample. The tree below `/s` holds the file `a` and the empty directory `d`,
the destination is `/s/d`, and the storage layer is the one in memory, on which a move takes
the file out of its directory and puts it into the destination. No listing and no move
fails and the path of the only leaf, `/s/a`, differs from the destination. The file `a` is
moved to `/s/d`, found again by the listing of `/s/d`, and moved a second time: two terminal
moves for one leaf. -/
theorem C1_counterexample_destination_inside_tree :
    leavesL "/s" [.file 1 "a", .dir 2 "d" []] = ["/s/a"] ∧
    FsRecursiveMove plainDeps (memFs [] []) rootUser (.ok { SrcDir := "/s", DstDir := "/s/d" })
        3 (Mem.init [("/s", [⟨1, "a", false⟩, ⟨2, "d", true⟩]), ("/s/d", [])]) =
      (some (.SuccessResp none),
        [.List "/s" false (.ok [⟨1, "a", false⟩, ⟨2, "d", true⟩]),
         .Move "/s/a" "/s/d" false none,
         .List "/s/d" true (.ok [⟨1, "a", false⟩]),
         .Move "/s/d/a" "/s/d" true none],
        Mem.init [("/s", [⟨2, "d", true⟩]), ("/s/d", [⟨1, "a", false⟩])]) := by
  decide

/-- C1, amended. A finite directory tree `forest` below `srcDir` whose objects are distinct,
no leaf of which has `dstDir` as its full path, and a run of `FsRecursiveMove` (permitted
identity, paths resolving, with a pop for every object of the tree) in which every listing
of a directory of the tree returned the entries the tree has for it and no move returned an
error: the run ends with a success response; its terminal moves are, up to order, one move
to `dstDir` for each non-directory object of the tree, on the path "containing
directory/name", and no other; and the calls recorded are the calls made on the storage
layer, which is left in the state the last of them produced. -/
theorem C1_recursive_move_moves_each_leaf_once (d : Deps) (fs : Fs σ) (user : User)
    (req : RecursiveMoveReq) (s : σ) (srcDir dstDir : String) (forest : List Tree) (fuel : Nat)
    (hcan : user.CanMove = true)
    (hsrc : user.JoinPath req.SrcDir = .ok srcDir)
    (hdst : user.JoinPath req.DstDir = .ok dstDir)
    (hmeta : metaFatal (d.GetNearestMeta srcDir).2 = none)
    (hnd : (objsL forest).Nodup)
    (hskip : ∀ p ∈ leavesL srcDir forest, p ≠ dstDir)
    (hfuel : sizeL forest ≤ fuel)
    (hgood : ∀ c ∈ (FsRecursiveMove d fs user (.ok req) fuel s).2.1,
      goodCall (dirTable srcDir forest) c = true) :
    (FsRecursiveMove d fs user (.ok req) fuel s).1 = some (.SuccessResp none) ∧
    (moveArgs (FsRecursiveMove d fs user (.ok req) fuel s).2.1).Perm
      ((leavesL srcDir forest).map (fun p => (p, dstDir))) ∧
    Faithful fs (fs.SetMeta s (d.GetNearestMeta srcDir).1)
      (FsRecursiveMove d fs user (.ok req) fuel s).2.1
      (FsRecursiveMove d fs user (.ok req) fuel s).2.2 := by
  obtain ⟨hrun, hmv, -⟩ := FsRecursiveMove_forest d fs user req s srcDir dstDir forest fuel
    hcan hsrc hdst hmeta hnd hfuel hgood
  refine ⟨hrun, ?_, FsRecursiveMove_faithful d fs user req s srcDir dstDir fuel hcan hsrc hdst
    hmeta⟩
  have hf : (leavesL srcDir forest).filter (fun p => decide (p ≠ dstDir))
      = leavesL srcDir forest := by
    rw [List.filter_eq_self]
    intro p hp
    simpa using hskip p hp
  rw [hf] at hmv
  exact hmv

/-- Instance of C1: the tree `a`, `d/b`, `d/e/`, `c` below `/s` on the storage layer in
memory, moved to `/t`. -/
theorem C1_witness :
    ((FsRecursiveMove plainDeps (memFs [] []) rootUser (.ok { SrcDir := "/s", DstDir := "/t" })
        5 demoMem).1 = some (.SuccessResp none) ∧
      (moveArgs (FsRecursiveMove plainDeps (memFs [] []) rootUser
        (.ok { SrcDir := "/s", DstDir := "/t" }) 5 demoMem).2.1).Perm
        ((leavesL "/s" demoForest).map (fun p => (p, "/t"))) ∧
      Faithful (memFs [] []) ((memFs [] []).SetMeta demoMem (plainDeps.GetNearestMeta "/s").1)
        (FsRecursiveMove plainDeps (memFs [] []) rootUser
          (.ok { SrcDir := "/s", DstDir := "/t" }) 5 demoMem).2.1
        (FsRecursiveMove plainDeps (memFs [] []) rootUser
          (.ok { SrcDir := "/s", DstDir := "/t" }) 5 demoMem).2.2) ∧
    (FsRecursiveMove plainDeps (memFs [] []) rootUser (.ok { SrcDir := "/s", DstDir := "/t" })
        5 demoMem).2.2.dirs =
      [("/s", [⟨2, "d", true⟩]), ("/s/d", [⟨4, "e", true⟩]), ("/s/d/e", []),
       ("/t", [⟨1, "a", false⟩, ⟨5, "c", false⟩, ⟨3, "b", false⟩])] :=
  ⟨C1_recursive_move_moves_each_leaf_once plainDeps (memFs [] []) rootUser
      { SrcDir := "/s", DstDir := "/t" } demoMem "/s" "/t" demoForest 5 rfl rfl rfl rfl
      (by decide) (by decide) (by decide) (by decide),
   by decide⟩

/-- C2. `FsMove`, `FsCopy` and `FsRemove`, called by a permitted identity (the capability
is granted and `JoinPath` succeeds) with a non-empty list of names: if the terminal call
number `k` (counted from 0) fails with `e`, then the response is `e`, exactly `k + 1`
terminal calls were made, call number `j` being the call for name number `j` on
`path.Join(dir, name)`, and the calls before number `k` succeeded; so no call is made for a
later name. -/
theorem C2_batch_stops_at_first_failure (d : Deps) (fs : Fs σ) (user : User) (s : σ) :
    (∀ (req : MoveCopyReq) (srcDir dstDir : String) (k : Nat) (e : Err),
      req.Names ≠ [] → user.CanMove = true →
      user.JoinPath req.SrcDir = .ok srcDir → user.JoinPath req.DstDir = .ok dstDir →
      ((FsMove d fs user (.ok req) s).2.1[k]?).bind Call.err = some e →
        (FsMove d fs user (.ok req) s).1 = .ErrorResp e 500 ∧
        (FsMove d fs user (.ok req) s).2.1.length = k + 1 ∧
        (∀ (j : Nat) (c : Call), (FsMove d fs user (.ok req) s).2.1[j]? = some c →
          ∃ nm, req.Names[j]? = some nm ∧ c.isMove (d.Join srcDir nm) dstDir = true) ∧
        (∀ (j : Nat) (c : Call), j < k → (FsMove d fs user (.ok req) s).2.1[j]? = some c → c.err = none)) ∧
    (∀ (req : MoveCopyReq) (srcDir dstDir : String) (k : Nat) (e : Err),
      req.Names ≠ [] → user.CanCopy = true →
      user.JoinPath req.SrcDir = .ok srcDir → user.JoinPath req.DstDir = .ok dstDir →
      ((FsCopy d fs user (.ok req) s).2.1[k]?).bind Call.err = some e →
        (FsCopy d fs user (.ok req) s).1 = .ErrorResp e 500 ∧
        (FsCopy d fs user (.ok req) s).2.1.length = k + 1 ∧
        (∀ (j : Nat) (c : Call), (FsCopy d fs user (.ok req) s).2.1[j]? = some c →
          ∃ nm, req.Names[j]? = some nm ∧ c.isCopy (d.Join srcDir nm) dstDir = true) ∧
        (∀ (j : Nat) (c : Call), j < k → (FsCopy d fs user (.ok req) s).2.1[j]? = some c → c.err = none)) ∧
    (∀ (req : RemoveReq) (reqDir : String) (k : Nat) (e : Err),
      req.Names ≠ [] → user.CanRemove = true → user.JoinPath req.Dir = .ok reqDir →
      ((FsRemove d fs user (.ok req) s).2.1[k]?).bind Call.err = some e →
        (FsRemove d fs user (.ok req) s).1 = .ErrorResp e 500 ∧
        (FsRemove d fs user (.ok req) s).2.1.length = k + 1 ∧
        (∀ (j : Nat) (c : Call), (FsRemove d fs user (.ok req) s).2.1[j]? = some c →
          ∃ nm, req.Names[j]? = some nm ∧ c.isRemove (d.Join reqDir nm) = true) ∧
        (∀ (j : Nat) (c : Call), j < k → (FsRemove d fs user (.ok req) s).2.1[j]? = some c →
          c.err = none)) := by
  refine ⟨?_, ?_, ?_⟩
  · intro req srcDir dstDir k e hn hcan hsrc hdst hk
    rw [FsMove_eq d fs user req s srcDir dstDir hn hcan hsrc hdst] at hk ⊢
    obtain ⟨h1, h2, h3⟩ := moveNames_fail d fs srcDir dstDir _ _ _ _ k e hk
    refine ⟨h1, h2, ?_, h3⟩
    intro j c hc
    obtain ⟨nm, hnm, hmv, -⟩ := moveNames_calls d fs srcDir dstDir _ _ _ _ j c hc
    exact ⟨nm, hnm, hmv⟩
  · intro req srcDir dstDir k e hn hcan hsrc hdst hk
    rw [FsCopy_eq d fs user req s srcDir dstDir hn hcan hsrc hdst] at hk ⊢
    obtain ⟨h1, h2, h3⟩ := copyNames_fail d fs srcDir dstDir _ _ _ _ _ k e hk
    refine ⟨h1, h2, ?_, h3⟩
    intro j c hc
    obtain ⟨nm, hnm, hmv, -⟩ := copyNames_calls d fs srcDir dstDir _ _ _ _ _ j c hc
    exact ⟨nm, hnm, hmv⟩
  · intro req reqDir k e hn hcan hdir hk
    rw [FsRemove_eq d fs user req s reqDir hn hcan hdir] at hk ⊢
    obtain ⟨h1, h2, h3⟩ := removeNames_fail d fs reqDir _ _ k e hk
    exact ⟨h1, h2, removeNames_calls d fs reqDir _ _, h3⟩

/-- Instance of C2 on a concrete request and storage layer. -/
theorem C2_witness :
    ((FsMove plainDeps (testFs [] ["/s/b"] []) rootUser
        (.ok { SrcDir := "/s", DstDir := "/t", Names := ["a", "b", "c"] }) ()).1
      = .ErrorResp (.Other "boom") 500 ∧
     (FsMove plainDeps (testFs [] ["/s/b"] []) rootUser
        (.ok { SrcDir := "/s", DstDir := "/t", Names := ["a", "b", "c"] }) ()).2.1.length
      = 2) ∧
    ((FsCopy plainDeps (testFs [] ["/s/b"] []) rootUser
        (.ok { SrcDir := "/s", DstDir := "/t", Names := ["a", "b", "c"] }) ()).1
      = .ErrorResp (.Other "boom") 500 ∧
     (FsCopy plainDeps (testFs [] ["/s/b"] []) rootUser
        (.ok { SrcDir := "/s", DstDir := "/t", Names := ["a", "b", "c"] }) ()).2.1.length
      = 2) ∧
    ((FsRemove plainDeps (testFs [] ["/s/b"] []) rootUser
        (.ok { Dir := "/s", Names := ["a", "b", "c"] }) ()).1
      = .ErrorResp (.Other "boom") 500 ∧
     (FsRemove plainDeps (testFs [] ["/s/b"] []) rootUser
        (.ok { Dir := "/s", Names := ["a", "b", "c"] }) ()).2.1.length = 2) :=
  ⟨(fun h => ⟨h.1, h.2.1⟩)
    ((C2_batch_stops_at_first_failure plainDeps (testFs [] ["/s/b"] []) rootUser ()).1
      { SrcDir := "/s", DstDir := "/t", Names := ["a", "b", "c"] } "/s" "/t" 1 (.Other "boom")
      (by decide) rfl rfl rfl (by decide)),
   (fun h => ⟨h.1, h.2.1⟩)
    ((C2_batch_stops_at_first_failure plainDeps (testFs [] ["/s/b"] []) rootUser ()).2.1
      { SrcDir := "/s", DstDir := "/t", Names := ["a", "b", "c"] } "/s" "/t" 1 (.Other "boom")
      (by decide) rfl rfl rfl (by decide)),
   (fun h => ⟨h.1, h.2.1⟩)
    ((C2_batch_stops_at_first_failure plainDeps (testFs [] ["/s/b"] []) rootUser ()).2.2
      { Dir := "/s", Names := ["a", "b", "c"] } "/s" 1 (.Other "boom")
      (by decide) rfl rfl (by decide))⟩

/-- C3, the code at the failing input. `FsMove` and `FsCopy` on the names `a`, `b`: the
terminal call for the final name `b` is passed `false` and the call for the other name `a`
is passed `true`, where the claim (and the recursive move, which passes `true` when nothing
follows) has it the other way round. -/
theorem C3_flat_batch_flags_at_failing_input :
    FsMove plainDeps (testFs [] [] []) rootUser
        (.ok { SrcDir := "/s", DstDir := "/t", Names := ["a", "b"] }) () =
      (.SuccessResp none,
        [.Move "/s/a" "/t" true none, .Move "/s/b" "/t" false none], ()) ∧
    FsCopy plainDeps (testFs [] [] []) rootUser
        (.ok { SrcDir := "/s", DstDir := "/t", Names := ["a", "b"] }) () =
      (.SuccessResp none,
        [.Copy "/s/a" "/t" true false none, .Copy "/s/b" "/t" false false none], ()) := by
  decide

/-- C4, counterexample. The tree below `/s` holds the file `a` and the empty directory `d`;
no call fails. The run makes one terminal move, for `a`, while `d` is still queued: the move
carries `false`, and no terminal move of the run carries `true`. -/
theorem C4_counterexample_trailing_directory :
    leavesL "/s" [.file 1 "a", .dir 2 "d" []] = ["/s/a"] ∧
    (FsRecursiveMove plainDeps (memFs [] []) rootUser (.ok { SrcDir := "/s", DstDir := "/t" })
        2 (Mem.init [("/s", [⟨1, "a", false⟩, ⟨2, "d", true⟩]), ("/s/d", []), ("/t", [])])).1
      = some (.SuccessResp none) ∧
    (FsRecursiveMove plainDeps (memFs [] []) rootUser (.ok { SrcDir := "/s", DstDir := "/t" })
        2 (Mem.init [("/s", [⟨1, "a", false⟩, ⟨2, "d", true⟩]), ("/s/d", []), ("/t", [])])).2.1
      = [.List "/s" false (.ok [⟨1, "a", false⟩, ⟨2, "d", true⟩]),
         .Move "/s/a" "/t" false none,
         .List "/s/d" true (.ok [])] ∧
    List.countP Call.flagged
      [.List "/s" false (.ok [⟨1, "a", false⟩, ⟨2, "d", true⟩]),
       .Move "/s/a" "/t" false none,
       .List "/s/d" true (.ok [])] = 0 := by
  decide

/-- C4, amended. In every run of `FsRecursiveMove`, whatever the storage layer does, no
storage call but the last one is a terminal move that carries `true`: at most one terminal
move carries `true`, and one that does is the last call of the run, hence the last terminal
move made. On a finite directory tree `forest` below `srcDir` whose objects are distinct, in
a run (permitted identity, paths resolving, a pop for every object) in which every listing
of a directory of the tree returned the entries of the tree and no move returned an error,
the run ends with success, when no leaf's path equals `dstDir` and the last call of the run
is a terminal move, that move carries `true`, and the calls recorded are the calls made on
the storage layer. -/
theorem C4_flagged_move_is_last_call (d : Deps) (fs : Fs σ) (user : User)
    (req : RecursiveMoveReq) (fuel : Nat) (s : σ) :
    (∀ c ∈ (FsRecursiveMove d fs user (.ok req) fuel s).2.1.dropLast, c.flagged = false) ∧
    (FsRecursiveMove d fs user (.ok req) fuel s).2.1.countP Call.flagged ≤ 1 ∧
    (∀ (srcDir dstDir : String) (forest : List Tree),
      user.CanMove = true →
      user.JoinPath req.SrcDir = .ok srcDir →
      user.JoinPath req.DstDir = .ok dstDir →
      metaFatal (d.GetNearestMeta srcDir).2 = none →
      (objsL forest).Nodup →
      sizeL forest ≤ fuel →
      (∀ c ∈ (FsRecursiveMove d fs user (.ok req) fuel s).2.1,
        goodCall (dirTable srcDir forest) c = true) →
      (FsRecursiveMove d fs user (.ok req) fuel s).1 = some (.SuccessResp none) ∧
      ((∀ p ∈ leavesL srcDir forest, p ≠ dstDir) →
        ∀ a b f e, (FsRecursiveMove d fs user (.ok req) fuel s).2.1.getLast?
          = some (.Move a b f e) → f = true) ∧
      Faithful fs (fs.SetMeta s (d.GetNearestMeta srcDir).1)
        (FsRecursiveMove d fs user (.ok req) fuel s).2.1
        (FsRecursiveMove d fs user (.ok req) fuel s).2.2) := by
  have hdrop := FsRecursiveMove_flagged_last d fs user (.ok req) fuel s
  refine ⟨hdrop, countP_le_one_of_dropLast _ _ hdrop, ?_⟩
  intro srcDir dstDir forest hcan hsrc hdst hmeta hnd hfuel hgood
  obtain ⟨hrun, -, hlast⟩ := FsRecursiveMove_forest d fs user req s srcDir dstDir forest fuel
    hcan hsrc hdst hmeta hnd hfuel hgood
  exact ⟨hrun, hlast, FsRecursiveMove_faithful d fs user req s srcDir dstDir fuel hcan hsrc
    hdst hmeta⟩

/-- Instance of C4: the tree `a`, `d/b` below `/s` on the storage layer in memory, moved to
`/t`. The last call of the run is the move of `/s/d/b`, and it is the one flagged move. -/
theorem C4_witness :
    (FsRecursiveMove plainDeps (memFs [] []) rootUser (.ok { SrcDir := "/s", DstDir := "/t" })
        3 (Mem.init [("/s", [⟨1, "a", false⟩, ⟨2, "d", true⟩]), ("/s/d", [⟨3, "b", false⟩]),
          ("/t", [])])).2.1.countP Call.flagged ≤ 1 ∧
    FsRecursiveMove plainDeps (memFs [] []) rootUser (.ok { SrcDir := "/s", DstDir := "/t" })
        3 (Mem.init [("/s", [⟨1, "a", false⟩, ⟨2, "d", true⟩]), ("/s/d", [⟨3, "b", false⟩]),
          ("/t", [])]) =
      (some (.SuccessResp none),
        [.List "/s" false (.ok [⟨1, "a", false⟩, ⟨2, "d", true⟩]),
         .Move "/s/a" "/t" false none,
         .List "/s/d" true (.ok [⟨3, "b", false⟩]),
         .Move "/s/d/b" "/t" true none],
        Mem.init [("/s", [⟨2, "d", true⟩]), ("/s/d", []),
          ("/t", [⟨1, "a", false⟩, ⟨3, "b", false⟩])]) ∧
    (∀ a b f e,
      (FsRecursiveMove plainDeps (memFs [] []) rootUser
        (.ok { SrcDir := "/s", DstDir := "/t" })
        3 (Mem.init [("/s", [⟨1, "a", false⟩, ⟨2, "d", true⟩]), ("/s/d", [⟨3, "b", false⟩]),
          ("/t", [])])).2.1.getLast? = some (.Move a b f e) → f = true) :=
  (fun h => ⟨h.2.1, by decide,
      (h.2.2 "/s" "/t" [.file 1 "a", .dir 2 "d" [.file 3 "b"]] rfl rfl rfl rfl
        (by decide) (by decide) (by decide)).2.1 (by decide)⟩)
    (C4_flagged_move_is_last_call plainDeps (memFs [] []) rootUser
      { SrcDir := "/s", DstDir := "/t" } 3
      (Mem.init [("/s", [⟨1, "a", false⟩, ⟨2, "d", true⟩]), ("/s/d", [⟨3, "b", false⟩]),
        ("/t", [])]))

/-- C5, counterexample. `FsMove` from `/a` to `/a/b` with the name `b`: the resolved full
path `path.Join("/a", "b")` equals the destination directory, and the terminal move is
called for it all the same. -/
theorem C5_counterexample_flat_move_has_no_guard :
    plainDeps.Join "/a" "b" = "/a/b" ∧
    FsMove plainDeps (testFs [] [] []) rootUser
        (.ok { SrcDir := "/a", DstDir := "/a/b", Names := ["b"] }) () =
      (.SuccessResp none, [.Move "/a/b" "/a/b" false none], ()) := by
  decide

/-- C5, amended. The flat move `FsMove` has no self-move guard: called by a permitted
identity with a non-empty list of names, in a run none of whose terminal calls fails, it
answers success after one terminal move for every name of the list, in order, on
`path.Join(srcDir, name)` with the destination `dstDir`, whatever that joined path is (the
destination directory included), and the names after such a name are processed like the
others; the calls recorded are the calls made on the storage layer. -/
theorem C5_flat_move_has_no_self_move_guard (d : Deps) (fs : Fs σ) (user : User)
    (req : MoveCopyReq) (s : σ) (srcDir dstDir : String)
    (hn : req.Names ≠ []) (hcan : user.CanMove = true)
    (hsrc : user.JoinPath req.SrcDir = .ok srcDir)
    (hdst : user.JoinPath req.DstDir = .ok dstDir)
    (hok : ∀ c ∈ (FsMove d fs user (.ok req) s).2.1, c.err = none) :
    (FsMove d fs user (.ok req) s).1 = .SuccessResp none ∧
    (FsMove d fs user (.ok req) s).2.1.length = req.Names.length ∧
    (∀ (j : Nat) (c : Call), (FsMove d fs user (.ok req) s).2.1[j]? = some c →
      ∃ nm, req.Names[j]? = some nm ∧ c.isMove (d.Join srcDir nm) dstDir = true) ∧
    Faithful fs s (FsMove d fs user (.ok req) s).2.1 (FsMove d fs user (.ok req) s).2.2 := by
  rw [FsMove_eq d fs user req s srcDir dstDir hn hcan hsrc hdst] at hok ⊢
  obtain ⟨h1, h2⟩ := moveNames_ok d fs srcDir dstDir _ _ _ _ hok
  refine ⟨h1, h2, ?_, moveNames_faithful d fs srcDir dstDir _ _ _ _⟩
  intro j c hc
  obtain ⟨nm, hnm, hmv, -⟩ := moveNames_calls d fs srcDir dstDir _ _ _ _ j c hc
  exact ⟨nm, hnm, hmv⟩

/-- Instance of C5 on the storage layer in memory: the names `b`, `c` moved from `/a` to
`/a/b`; the first joined path is the destination itself, and both names get their terminal
move. -/
theorem C5_witness :
    (FsMove plainDeps (memFs [] []) rootUser
        (.ok { SrcDir := "/a", DstDir := "/a/b", Names := ["b", "c"] })
        (Mem.init [("/a", [⟨1, "b", false⟩, ⟨2, "c", false⟩]), ("/a/b", [])])).1
      = .SuccessResp none ∧
    FsMove plainDeps (memFs [] []) rootUser
        (.ok { SrcDir := "/a", DstDir := "/a/b", Names := ["b", "c"] })
        (Mem.init [("/a", [⟨1, "b", false⟩, ⟨2, "c", false⟩]), ("/a/b", [])]) =
      (.SuccessResp none,
        [.Move "/a/b" "/a/b" true none, .Move "/a/c" "/a/b" false none],
        Mem.init [("/a", []), ("/a/b", [⟨1, "b", false⟩, ⟨2, "c", false⟩])]) :=
  (fun h => ⟨h.1, by decide⟩)
    (C5_flat_move_has_no_self_move_guard plainDeps (memFs [] []) rootUser
      { SrcDir := "/a", DstDir := "/a/b", Names := ["b", "c"] }
      (Mem.init [("/a", [⟨1, "b", false⟩, ⟨2, "c", false⟩]), ("/a/b", [])]) "/a" "/a/b"
      (by decide) rfl rfl rfl (by decide))

/-- C6, counterexample. The nearest meta record grants writing for the path, the identity
has no base capability to move: `FsMove` answers PermissionDenied without looking at the
record. -/
theorem C6_counterexample_move_ignores_override :
    grantingDeps.CanWrite (grantingDeps.GetNearestMeta "/s").1 "/s/a" = true ∧
    FsMove grantingDeps (testFs [] [] []) guest
        (.ok { SrcDir := "/s", DstDir := "/t", Names := ["a"] }) () =
      (.ErrorResp .PermissionDenied 403, [], ()) := by
  decide

/-- C6, amended. Only `FsMkdir` combines the base capability with the meta override: when the
path resolves and the lookup of the nearest meta record does not fail, it answers
PermissionDenied exactly when the base capability lacks writing and the override does not
grant it for the path. `FsMove`, `FsCopy`, `FsRename` and `FsRemove` consult no override:
when the paths resolve (and the list of names is not empty) they answer PermissionDenied
exactly when the base capability lacks the operation. -/
theorem C6_permission_gate (d : Deps) (fs : Fs σ) (user : User) (s : σ) :
    (∀ (req : MkdirOrLinkReq) (reqPath : String),
      user.JoinPath req.Path = .ok reqPath →
      metaFatal (d.GetNearestMeta (d.Dir reqPath)).2 = none →
      ((FsMkdir d fs user (.ok req) s).1 = .ErrorResp .PermissionDenied 403 ↔
        (user.CanWrite = false ∧
          d.CanWrite (d.GetNearestMeta (d.Dir reqPath)).1 reqPath = false))) ∧
    (∀ (req : MoveCopyReq) (srcDir dstDir : String),
      req.Names ≠ [] →
      user.JoinPath req.SrcDir = .ok srcDir → user.JoinPath req.DstDir = .ok dstDir →
      ((FsMove d fs user (.ok req) s).1 = .ErrorResp .PermissionDenied 403 ↔
        user.CanMove = false)) ∧
    (∀ (req : MoveCopyReq) (srcDir dstDir : String),
      req.Names ≠ [] →
      user.JoinPath req.SrcDir = .ok srcDir → user.JoinPath req.DstDir = .ok dstDir →
      ((FsCopy d fs user (.ok req) s).1 = .ErrorResp .PermissionDenied 403 ↔
        user.CanCopy = false)) ∧
    (∀ (req : RenameReq) (reqPath : String),
      user.JoinPath req.Path = .ok reqPath →
      ((FsRename fs user (.ok req) s).1 = .ErrorResp .PermissionDenied 403 ↔
        user.CanRename = false)) ∧
    (∀ (req : RemoveReq) (reqDir : String),
      req.Names ≠ [] →
      user.JoinPath req.Dir = .ok reqDir →
      ((FsRemove d fs user (.ok req) s).1 = .ErrorResp .PermissionDenied 403 ↔
        user.CanRemove = false)) := by
  refine ⟨?_, ?_, ?_, ?_, ?_⟩
  · intro req reqPath hpath hmeta
    rcases hmd : fs.MakeDir s reqPath with ⟨_ | e, s1⟩ <;>
      cases hw : user.CanWrite <;>
      cases hc : d.CanWrite (d.GetNearestMeta (d.Dir reqPath)).1 reqPath <;>
      simp [FsMkdir, hpath, hmeta, hw, hc, hmd]
  · intro req srcDir dstDir hn hsrc hdst
    have hl : req.Names.length ≠ 0 := fun h => hn (List.length_eq_zero.1 h)
    cases hcan : user.CanMove
    · simp [FsMove, hl, hcan]
    · rw [FsMove_eq d fs user req s srcDir dstDir hn hcan hsrc hdst]
      simp [moveNames_code]
  · intro req srcDir dstDir hn hsrc hdst
    have hl : req.Names.length ≠ 0 := fun h => hn (List.length_eq_zero.1 h)
    cases hcan : user.CanCopy
    · simp [FsCopy, hl, hcan]
    · rw [FsCopy_eq d fs user req s srcDir dstDir hn hcan hsrc hdst]
      simp [copyNames_code]
  · intro req reqPath hpath
    rcases hrn : fs.Rename s reqPath req.Name with ⟨_ | e, s1⟩ <;>
      cases hcan : user.CanRename <;>
      simp [FsRename, hcan, hpath, hrn]
  · intro req reqDir hn hdir
    have hl : req.Names.length ≠ 0 := fun h => hn (List.length_eq_zero.1 h)
    cases hcan : user.CanRemove
    · simp [FsRemove, hl, hcan]
    · rw [FsRemove_eq d fs user req s reqDir hn hcan hdir]
      simp [removeNames_code]

/-- Instance of C6 on a concrete request and storage layer. -/
theorem C6_witness :
    ((FsMkdir grantingDeps (testFs [] [] []) guest (.ok { Path := "/s/new" }) ()).1
        = .ErrorResp .PermissionDenied 403 ↔
      (guest.CanWrite = false ∧
        grantingDeps.CanWrite (grantingDeps.GetNearestMeta (grantingDeps.Dir "/s/new")).1
          "/s/new" = false)) ∧
    ((FsMove grantingDeps (testFs [] [] []) guest
        (.ok { SrcDir := "/s", DstDir := "/t", Names := ["a"] }) ()).1
        = .ErrorResp .PermissionDenied 403 ↔ guest.CanMove = false) ∧
    ((FsRemove grantingDeps (testFs [] [] []) rootUser
        (.ok { Dir := "/s", Names := ["a"] }) ()).1
        = .ErrorResp .PermissionDenied 403 ↔ rootUser.CanRemove = false) :=
  ⟨(C6_permission_gate grantingDeps (testFs [] [] []) guest ()).1
      { Path := "/s/new" } "/s/new" rfl rfl,
   (C6_permission_gate grantingDeps (testFs [] [] []) guest ()).2.1
      { SrcDir := "/s", DstDir := "/t", Names := ["a"] } "/s" "/t" (by decide) rfl rfl,
   (C6_permission_gate grantingDeps (testFs [] [] []) rootUser ()).2.2.2.2
      { Dir := "/s", Names := ["a"] } "/s" (by decide) rfl⟩

/-- C7. `FsRegexRename` by a permitted identity, the path resolving, the meta lookup not
failing, the pattern compiling, the listing of the directory returning `files`, in a run
none of whose renames fails: the response is success and, after the listing, the storage
calls are exactly one rename for each listed child whose name matches the pattern, on the
path `reqPath + "/" + name` with the new name `ReplaceAllString(name, replacement)`, in the
order of the listing, and no rename for a child that does not match; the calls recorded
are the calls made on the storage layer, which is left in the state the last of them
produced. For any permutation of the listing the renames issued are the same up to
order. -/
theorem C7_regex_rename_matching_children (d : Deps) (fs : Fs σ) (user : User)
    (req : RegexRenameReq) (s : σ) (reqPath : String) (re : Regexp) (files : List Obj)
    (hcan : user.CanRename = true)
    (hpath : user.JoinPath req.SrcDir = .ok reqPath)
    (hmeta : metaFatal (d.GetNearestMeta reqPath).2 = none)
    (hre : d.Compile req.SrcNameRegex = .ok re)
    (hlist : (fs.List (fs.SetMeta s (d.GetNearestMeta reqPath).1) reqPath false).1
      = .ok files)
    (hok : ∀ c ∈ (FsRegexRename d fs user (.ok req) s).2.1, c.err = none) :
    (FsRegexRename d fs user (.ok req) s).1 = .SuccessResp none ∧
    (FsRegexRename d fs user (.ok req) s).2.1 =
      .List reqPath false (.ok files) ::
        (files.filter (fun f => re.MatchString f.name)).map
          (fun f => .Rename (reqPath ++ "/" ++ f.name)
            (re.ReplaceAllString f.name req.NewNameRegex) none) ∧
    Faithful fs (fs.SetMeta s (d.GetNearestMeta reqPath).1)
      (FsRegexRename d fs user (.ok req) s).2.1 (FsRegexRename d fs user (.ok req) s).2.2 ∧
    (∀ (τ : Type) (fs2 : Fs τ) (s2 : τ) (files2 : List Obj), files2.Perm files →
      (fs2.List (fs2.SetMeta s2 (d.GetNearestMeta reqPath).1) reqPath false).1 = .ok files2 →
      (∀ c ∈ (FsRegexRename d fs2 user (.ok req) s2).2.1, c.err = none) →
      (renameArgs (FsRegexRename d fs2 user (.ok req) s2).2.1).Perm
        (renameArgs (FsRegexRename d fs user (.ok req) s).2.1)) := by
  have key : ∀ (τ : Type) (fs3 : Fs τ) (s3 : τ) (files3 : List Obj),
      (fs3.List (fs3.SetMeta s3 (d.GetNearestMeta reqPath).1) reqPath false).1 = .ok files3 →
      (∀ c ∈ (FsRegexRename d fs3 user (.ok req) s3).2.1, c.err = none) →
      (FsRegexRename d fs3 user (.ok req) s3).1 = .SuccessResp none ∧
      (FsRegexRename d fs3 user (.ok req) s3).2.1 =
        .List reqPath false (.ok files3) ::
          (files3.filter (fun f => re.MatchString f.name)).map
            (fun f => .Rename (reqPath ++ "/" ++ f.name)
              (re.ReplaceAllString f.name req.NewNameRegex) none) ∧
      Faithful fs3 (fs3.SetMeta s3 (d.GetNearestMeta reqPath).1)
        (FsRegexRename d fs3 user (.ok req) s3).2.1
        (FsRegexRename d fs3 user (.ok req) s3).2.2 := by
    intro τ fs3 s3 files3 hl hk
    rcases hfs : fs3.List (fs3.SetMeta s3 (d.GetNearestMeta reqPath).1) reqPath false
      with ⟨res, s1⟩
    rw [hfs] at hl
    simp only at hl
    subst hl
    have heq : FsRegexRename d fs3 user (.ok req) s3 =
        (renameFiles fs3 re reqPath req.NewNameRegex files3 s1).after
          (.List reqPath false (.ok files3)) := by
      simp only [FsRegexRename, hcan, hpath, hmeta, hre, hfs]
      rfl
    rw [heq] at hk ⊢
    have h := renameFiles_ok fs3 re reqPath req.NewNameRegex files3 s1
      (fun c hc => hk c (by simp only [Out.after]; exact List.mem_cons_of_mem _ hc))
    refine ⟨h.1, by simp only [Out.after, h.2], ?_⟩
    simp only [Out.after, Faithful, hfs, true_and]
    exact renameFiles_faithful fs3 re reqPath req.NewNameRegex files3 s1
  have hargs : ∀ (l : List Obj),
      renameArgs (.List reqPath false (.ok l) ::
        (l.filter (fun f => re.MatchString f.name)).map
          (fun f => Call.Rename (reqPath ++ "/" ++ f.name)
            (re.ReplaceAllString f.name req.NewNameRegex) none)) =
      (l.filter (fun f => re.MatchString f.name)).map
        (fun f => (reqPath ++ "/" ++ f.name, re.ReplaceAllString f.name req.NewNameRegex)) := by
    intro l
    simp only [renameArgs]
    induction l.filter (fun f => re.MatchString f.name) with
    | nil => rfl
    | cons f r ih => simp [renameArgs, ih]
  refine ⟨(key σ fs s files hlist hok).1, (key σ fs s files hlist hok).2.1,
    (key σ fs s files hlist hok).2.2, ?_⟩
  intro τ fs2 s2 files2 hperm hl2 hk2
  rw [(key σ fs s files hlist hok).2.1, (key τ fs2 s2 files2 hl2 hk2).2.1, hargs, hargs]
  exact (hperm.filter _).map _

/-- Instance of C7: the children `a.txt`, `b.txt`, `c.log` of `/s` on the storage layer in
memory, the pattern `(.*)\.txt` and the replacement `$1.bak`. -/
theorem C7_witness :
    (FsRegexRename txtDeps (memFs [] []) rootUser
        (.ok { SrcDir := "/s", SrcNameRegex := "(.*)\\.txt", NewNameRegex := "$1.bak" })
        (Mem.init [("/s", [⟨1, "a.txt", false⟩, ⟨2, "b.txt", false⟩, ⟨3, "c.log", false⟩])])).2.1 =
      [.List "/s" false (.ok [⟨1, "a.txt", false⟩, ⟨2, "b.txt", false⟩, ⟨3, "c.log", false⟩]),
       .Rename "/s/a.txt" "a.bak" none, .Rename "/s/b.txt" "b.bak" none] ∧
    (FsRegexRename txtDeps (memFs [] []) rootUser
        (.ok { SrcDir := "/s", SrcNameRegex := "(.*)\\.txt", NewNameRegex := "$1.bak" })
        (Mem.init [("/s", [⟨1, "a.txt", false⟩, ⟨2, "b.txt", false⟩, ⟨3, "c.log", false⟩])])).2.2
      = Mem.init [("/s", [⟨1, "a.bak", false⟩, ⟨2, "b.bak", false⟩, ⟨3, "c.log", false⟩])] ∧
    (renameArgs (FsRegexRename txtDeps (memFs [] []) rootUser
        (.ok { SrcDir := "/s", SrcNameRegex := "(.*)\\.txt", NewNameRegex := "$1.bak" })
        (Mem.init [("/s", [⟨3, "c.log", false⟩, ⟨2, "b.txt", false⟩, ⟨1, "a.txt", false⟩])])).2.1).Perm
      (renameArgs (FsRegexRename txtDeps (memFs [] []) rootUser
        (.ok { SrcDir := "/s", SrcNameRegex := "(.*)\\.txt", NewNameRegex := "$1.bak" })
        (Mem.init [("/s", [⟨1, "a.txt", false⟩, ⟨2, "b.txt", false⟩, ⟨3, "c.log", false⟩])])).2.1) :=
  (fun h => ⟨h.2.1.trans (by decide), by decide,
      h.2.2.2 Mem (memFs [] [])
        (Mem.init [("/s", [⟨3, "c.log", false⟩, ⟨2, "b.txt", false⟩, ⟨1, "a.txt", false⟩])])
        [⟨3, "c.log", false⟩, ⟨2, "b.txt", false⟩, ⟨1, "a.txt", false⟩]
        (by decide) rfl (by decide)⟩)
    (C7_regex_rename_matching_children txtDeps (memFs [] []) rootUser
      { SrcDir := "/s", SrcNameRegex := "(.*)\\.txt", NewNameRegex := "$1.bak" }
      (Mem.init [("/s", [⟨1, "a.txt", false⟩, ⟨2, "b.txt", false⟩, ⟨3, "c.log", false⟩])])
      "/s" (txtRegexp asciiName) [⟨1, "a.txt", false⟩, ⟨2, "b.txt", false⟩, ⟨3, "c.log", false⟩]
      rfl rfl rfl rfl rfl (by decide))

/-- C8, counterexample. `FsCopy` by a permitted identity on no name at all answers the
error "Empty file names" with the code 400, not the plain success the claim gives for zero
queued copies. `FsCopy` on the one name `a`, whose terminal copy answers "queued" together
with an error, answers that error with the code 500: one of the one terminal copy calls
returned "queued" and the result states no count. -/
theorem C8_counterexample_empty_list_and_failing_copy :
    FsCopy plainDeps (testFs [] [] []) rootUser
        (.ok { SrcDir := "/s", DstDir := "/t", Names := [] }) () =
      (.ErrorStrResp "Empty file names" 400, [], ()) ∧
    FsCopy plainDeps (testFs [] ["/s/a"] ["/s/a"]) rootUser
        (.ok { SrcDir := "/s", DstDir := "/t", Names := ["a"] }) () =
      (.ErrorResp (.Other "boom") 500,
        [.Copy "/s/a" "/t" false true (some (.Other "boom"))], ()) := by
  decide

/-- C8, amended. `FsCopy` on a non-empty list of `N` names by a permitted identity, in a run
none of whose terminal copy calls returns an error: all `N` calls are made, and if `M` of
them answered "queued" the response is the success message "Added M tasks" when `M > 0`
and the plain success without data when `M = 0`; the calls recorded are the calls made on
the storage layer. -/
theorem C8_copy_reports_queued_count (d : Deps) (fs : Fs σ) (user : User) (req : MoveCopyReq)
    (s : σ) (srcDir dstDir : String) (hn : req.Names ≠ []) (hcan : user.CanCopy = true)
    (hsrc : user.JoinPath req.SrcDir = .ok srcDir)
    (hdst : user.JoinPath req.DstDir = .ok dstDir)
    (hok : ∀ c ∈ (FsCopy d fs user (.ok req) s).2.1, c.err = none) :
    (FsCopy d fs user (.ok req) s).2.1.length = req.Names.length ∧
    (FsCopy d fs user (.ok req) s).1 =
      (if (FsCopy d fs user (.ok req) s).2.1.countP Call.queued > 0 then
        .SuccessResp (some (.Str ("Added " ++
          toString ((FsCopy d fs user (.ok req) s).2.1.countP Call.queued) ++ " tasks")))
      else .SuccessResp none) ∧
    Faithful fs s (FsCopy d fs user (.ok req) s).2.1 (FsCopy d fs user (.ok req) s).2.2 := by
  rw [FsCopy_eq d fs user req s srcDir dstDir hn hcan hsrc hdst] at hok ⊢
  have h := copyNames_ok d fs srcDir dstDir _ _ _ _ _ hok
  exact ⟨h.1, by simpa using h.2, copyNames_faithful d fs srcDir dstDir _ _ _ _ _⟩

/-- Instance of C8 on the storage layer in memory: of the copies of `a`, `b`, `c` those of
`a` and `c` are queued and `b` is copied at once; and a batch with no queued copy. -/
theorem C8_witness :
    ((FsCopy plainDeps (memFs [] ["/s/a", "/s/c"]) rootUser
        (.ok { SrcDir := "/s", DstDir := "/t", Names := ["a", "b", "c"] })
        (Mem.init [("/s", [⟨1, "a", false⟩, ⟨2, "b", false⟩, ⟨3, "c", false⟩]),
          ("/t", [])])).2.1.length = 3 ∧
     (FsCopy plainDeps (memFs [] ["/s/a", "/s/c"]) rootUser
        (.ok { SrcDir := "/s", DstDir := "/t", Names := ["a", "b", "c"] })
        (Mem.init [("/s", [⟨1, "a", false⟩, ⟨2, "b", false⟩, ⟨3, "c", false⟩]),
          ("/t", [])])).1 = .SuccessResp (some (.Str "Added 2 tasks")) ∧
     (FsCopy plainDeps (memFs [] ["/s/a", "/s/c"]) rootUser
        (.ok { SrcDir := "/s", DstDir := "/t", Names := ["a", "b", "c"] })
        (Mem.init [("/s", [⟨1, "a", false⟩, ⟨2, "b", false⟩, ⟨3, "c", false⟩]),
          ("/t", [])])).2.2 =
       Mem.init [("/s", [⟨1, "a", false⟩, ⟨2, "b", false⟩, ⟨3, "c", false⟩]),
         ("/t", [⟨2, "b", false⟩])]) ∧
    (FsCopy plainDeps (memFs [] []) rootUser
        (.ok { SrcDir := "/s", DstDir := "/t", Names := ["a", "b"] })
        (Mem.init [("/s", [⟨1, "a", false⟩, ⟨2, "b", false⟩]), ("/t", [])])).1
      = .SuccessResp none :=
  ⟨(fun h => ⟨h.1, h.2.1.trans (by decide), by decide⟩)
    (C8_copy_reports_queued_count plainDeps (memFs [] ["/s/a", "/s/c"]) rootUser
      { SrcDir := "/s", DstDir := "/t", Names := ["a", "b", "c"] }
      (Mem.init [("/s", [⟨1, "a", false⟩, ⟨2, "b", false⟩, ⟨3, "c", false⟩]), ("/t", [])])
      "/s" "/t" (by decide) rfl rfl rfl (by decide)),
   (C8_copy_reports_queued_count plainDeps (memFs [] []) rootUser
      { SrcDir := "/s", DstDir := "/t", Names := ["a", "b"] }
      (Mem.init [("/s", [⟨1, "a", false⟩, ⟨2, "b", false⟩]), ("/t", [])])
      "/s" "/t" (by decide) rfl rfl rfl (by decide)).2.1.trans (by decide)⟩

/-- C9. For a path whose storage resolves: when the owning storage is flagged `OnlyLocal`,
`Link` makes no storage call at all (so never the native `fs.Link`), leaves the state as it
was and answers the URL `apiBase + "/p" + EncodePath(path, true) + "?d&sign=" + Sign(path)`;
otherwise its first storage call is `fs.Link` on that path with the client IP of the
caller, made in the state of the request, the only call that may follow is the release of
the returned data stream, the calls recorded are the calls made on the storage layer, and
the response is the link `fs.Link` returned, or its error with the code 500. -/
theorem C9_link_only_local_or_native (d : Deps) (fs : Fs σ) (c : Ctx) (req : MkdirOrLinkReq)
    (s : σ) (storage : Storage) (hst : fs.GetStorage s req.Path = .ok storage) :
    (storage.OnlyLocal = true →
      Link d fs c (.ok req) s =
        (.SuccessResp (some (.Lnk
          { URL := c.ApiUrl ++ "/p" ++ d.EncodePath req.Path true ++ "?d&sign=" ++
              d.Sign req.Path,
            hasData := false })), [], s)) ∧
    (storage.OnlyLocal = false →
      (∃ rest, (Link d fs c (.ok req) s).2.1 =
          .Link req.Path c.ClientIP (fs.Link s req.Path c.ClientIP).1 :: rest ∧
        ∀ x ∈ rest, ∃ e, x = Call.Close e) ∧
      Faithful fs s (Link d fs c (.ok req) s).2.1 (Link d fs c (.ok req) s).2.2 ∧
      (Link d fs c (.ok req) s).1 =
        (match (fs.Link s req.Path c.ClientIP).1 with
          | .ok link => .SuccessResp (some (.Lnk link))
          | .error e => .ErrorResp e 500)) := by
  constructor
  · intro h
    simp [Link, hst, h]
  · intro h
    rcases hfs : fs.Link s req.Path c.ClientIP with ⟨res, s1⟩
    cases res with
    | error e =>
      have heq : Link d fs c (.ok req) s =
          (.ErrorResp e 500, [.Link req.Path c.ClientIP (.error e)], s1) := by
        simp [Link, hst, h, hfs]
      rw [heq]
      exact ⟨⟨[], rfl, by simp⟩, by simp [Faithful, hfs], rfl⟩
    | ok link =>
      cases hd : link.hasData
      · have heq : Link d fs c (.ok req) s =
            (.SuccessResp (some (.Lnk link)), [.Link req.Path c.ClientIP (.ok link)], s1) := by
          simp [Link, hst, h, hfs, hd]
        rw [heq]
        exact ⟨⟨[], rfl, by simp⟩, by simp [Faithful, hfs], rfl⟩
      · have heq : Link d fs c (.ok req) s =
            (.SuccessResp (some (.Lnk link)),
              [.Link req.Path c.ClientIP (.ok link), .Close (fs.Close s1).1],
              (fs.Close s1).2) := by
          simp [Link, hst, h, hfs, hd]
        rw [heq]
        exact ⟨⟨[.Close (fs.Close s1).1], rfl, by simp⟩, by simp [Faithful, hfs], rfl⟩

/-- Instance of C9 on the storage layer in memory: `/local/f` lies on an `OnlyLocal` storage,
`/remote/f` does not; the native link of `/remote/f` is handed out for the client IP and its
data stream released. -/
theorem C9_witness :
    Link plainDeps (memFs [] ["/local/f"]) demoCtx (.ok { Path := "/local/f" }) (Mem.init []) =
      (.SuccessResp (some (.Lnk
        { URL := "http://host/api/p/local/f?d&sign=/local/f", hasData := false })), [],
        Mem.init []) ∧
    Link plainDeps (memFs [] ["/local/f"]) demoCtx (.ok { Path := "/remote/f" }) (Mem.init []) =
      (.SuccessResp (some (.Lnk { URL := "native:/remote/f@10.0.0.7", hasData := true })),
        [.Link "/remote/f" "10.0.0.7"
            (.ok { URL := "native:/remote/f@10.0.0.7", hasData := true }),
          .Close none],
        { dirs := [], links := [("/remote/f", "10.0.0.7")], closed := 1, ctxMeta := none }) ∧
    Faithful (memFs [] ["/local/f"]) (Mem.init [])
      (Link plainDeps (memFs [] ["/local/f"]) demoCtx (.ok { Path := "/remote/f" })
        (Mem.init [])).2.1
      (Link plainDeps (memFs [] ["/local/f"]) demoCtx (.ok { Path := "/remote/f" })
        (Mem.init [])).2.2 :=
  ⟨((C9_link_only_local_or_native plainDeps (memFs [] ["/local/f"]) demoCtx
      { Path := "/local/f" } (Mem.init []) { OnlyLocal := true } rfl).1 rfl).trans (by decide),
   by decide,
   ((C9_link_only_local_or_native plainDeps (memFs [] ["/local/f"]) demoCtx
      { Path := "/remote/f" } (Mem.init []) { OnlyLocal := false } rfl).2 rfl).2.1⟩

/-- C10, the code at the failing input. The tree below `/s` holds the directory `d` with the
file `b`. The listing of the source directory `/s` is issued with the flag `false`, the
listing of the popped directory `/s/d` with the flag `true`. -/
theorem C10_listing_flags_at_failing_input :
    FsRecursiveMove plainDeps (memFs [] []) rootUser (.ok { SrcDir := "/s", DstDir := "/t" }) 2
        (Mem.init [("/s", [⟨1, "d", true⟩]), ("/s/d", [⟨2, "b", false⟩]), ("/t", [])]) =
      (some (.SuccessResp none),
        [.List "/s" false (.ok [⟨1, "d", true⟩]),
         .List "/s/d" true (.ok [⟨2, "b", false⟩]),
         .Move "/s/d/b" "/t" true none],
        Mem.init [("/s", [⟨1, "d", true⟩]), ("/s/d", []), ("/t", [⟨2, "b", false⟩])]) := by
  decide

end Claims

end Alist
